import Mathlib

/-!
# Verification of the CodeLens scanner core (`src/backend/scanner.py`)

A shallow embedding, in Lean 4, of the scanning-and-resolution pipeline of
the CodeLens repository: archive traversal with resource limits,
textual-vs-binary classification, line counting, hierarchical tree
aggregation, import-statement extraction for JS/TS and Python, path
resolution, and graph assembly, followed by theorems settling the frozen
claims about this code.

Modelling conventions:

* Byte strings (`bytes`) are `List Nat` (each element one byte).
* Python strings are Lean `String`s, manipulated through their `List Char`
  data.  Character classes (`\s`, `\w`, `str.lower`) are modelled on the
  code points the repository's inputs actually use (ASCII plus the common
  Unicode whitespace); Unicode letter categories beyond ASCII are not
  modelled.
* `PurePosixPath` values are represented by their normalized segment lists
  (`List String`): construction drops empty and `"."` segments and keeps
  `".."`, exactly as `pathlib` does for relative paths.  Absolute paths
  (a leading `/`) do not occur in zipball entry names and are not modelled.
* Python `set` becomes a duplicate-free `List` with membership, insertion
  order preserved; `dict` becomes an insertion-ordered association list
  whose assignment replaces in place.
* The downloaded zipball is modelled by `Zipball`: the byte size of the
  downloaded stream (what `download_zipball` accumulates chunk by chunk)
  together with the archive's entry listing (what `zipfile` yields).  The
  compression relation between the two is not modelled.
* `uuid.uuid4()` and `time.time()` are lifted to parameters of the
  orchestrator.
* Exceptions (`raise ValueError`) become `Except String`.
-/

namespace CodeLens

/-! ## String and path utilities -/

/-- Python `str.split(sep)` on a character separator, on char lists: the
result is always nonempty and keeps empty pieces, like Python's `split`. -/
def splitChars (sep : Char) : List Char → List (List Char)
  | [] => [[]]
  | c :: rest =>
    let r := splitChars sep rest
    if c = sep then [] :: r
    else
      match r with
      | h :: t => (c :: h) :: t
      | [] => [[c]]

theorem splitChars_ne_nil (sep : Char) (l : List Char) : splitChars sep l ≠ [] := by
  cases l with
  | nil => simp [splitChars]
  | cons c rest =>
    simp only [splitChars]
    split
    · simp
    · split <;> simp_all

/-- Python `rel.split("/")` (all occurrences, empties kept). -/
def splitOnSlash (s : String) : List String :=
  (splitChars '/' s.data).map String.mk

theorem splitOnSlash_ne_nil (s : String) : splitOnSlash s ≠ [] := by
  simp [splitOnSlash, splitChars_ne_nil]

/-- The segment list of `PurePosixPath(s)` for a relative `s`: split on
`/`, dropping empty and `"."` segments (`pathlib` keeps `".."`). -/
def parseP (s : String) : List String :=
  ((splitChars '/' s.data).map String.mk).filter (fun seg => seg ≠ "" && seg ≠ ".")

/-- `str()` of a `PurePosixPath` given by its segments: `"."` for the empty
path, otherwise the segments joined with `/`. -/
def strP : List String → String
  | [] => "."
  | segs => String.intercalate "/" segs

/-- `_norm_posix(path)` from the source: `str(PurePosixPath(path))`. -/
def normPosix (s : String) : String :=
  strP (parseP s)

/-- `PurePosixPath(p).parent` on segment lists: drop the last segment
(the parent of the empty path is itself, as in `pathlib`). -/
def parentSegs (segs : List String) : List String :=
  segs.dropLast

/-- `PurePosixPath(p).name`: the last segment, `""` for the empty path. -/
def lastSegOf (p : String) : String :=
  ((parseP p).getLast?).getD ""

/-- `os.path.splitext(path)[1]` for POSIX paths: the suffix of the final
path component starting at its last `.`, empty when the component has no
`.` or only leading dots (`posixpath.splitext`). -/
def splitextExt (path : String) : String :=
  let base := ((splitChars '/' path.data).getLast?).getD []
  let revSpan := base.reverse.span (fun c => c ≠ '.')
  match revSpan.2 with
  | [] => ""
  | _ :: beforeRev =>
    if beforeRev.any (fun c => c ≠ '.') then String.mk ('.' :: revSpan.1.reverse)
    else ""

/-- ASCII `str.lower` (every extension the scanner compares against is
ASCII). -/
def lowerStr (s : String) : String :=
  String.mk (s.data.map Char.toLower)

/-- `os.path.splitext(path)[1].lower()`, as used throughout the scanner. -/
def extLower (path : String) : String :=
  lowerStr (splitextExt path)

/-- `arcname.split("/", 1)` followed by taking `parts[1] if len(parts) > 1
else parts[0]`: everything after the first `/`, or the whole name. -/
def stripTop (s : String) : String :=
  match s.data.span (fun c => c ≠ '/') with
  | (_, []) => s
  | (_, _ :: after) => String.mk after

/-! ## Limits and extension sets (`scanner.py` top of file) -/

def MAX_BYTES : Nat := 100 * 1024 * 1024

def MAX_FILES : Nat := 5000

def TEXT_EXTS : List String :=
  [".py", ".js", ".ts", ".tsx", ".jsx", ".json", ".md", ".yml", ".yaml", ".toml",
   ".css", ".scss", ".html", ".txt", ".rs", ".go", ".java", ".c", ".cpp", ".h", ".hpp",
   ".sh", ".rb", ".php", ".cs"]

def JS_TS_EXTS : List String :=
  [".js", ".jsx", ".ts", ".tsx", ".mjs", ".cjs", ".mts", ".cts", ".d.ts", ".json"]

def PY_EXTS : List String := [".py"]

def CANDIDATE_JS_TS : List String :=
  [".ts", ".tsx", ".js", ".jsx", ".json",
   "/index.ts", "/index.tsx", "/index.js", "/index.jsx"]

/-! ## UTF-8 decoding and line counting -/

/-- A UTF-8 continuation byte (`0x80`–`0xBF`). -/
def isCont (b : Nat) : Bool := 0x80 ≤ b && b ≤ 0xBF

/-- Strict UTF-8 validity of a byte list, the success condition of Python's
`bytes.decode("utf-8")` (RFC 3629: no overlongs, no surrogates, up to
`U+10FFFF`; a truncated final sequence is invalid). -/
def utf8Valid : List Nat → Bool
  | [] => true
  | b1 :: t1 =>
    if b1 < 0x80 then utf8Valid t1
    else if 0xC2 ≤ b1 && b1 ≤ 0xDF then
      match t1 with
      | b2 :: t2 => isCont b2 && utf8Valid t2
      | [] => false
    else if 0xE0 ≤ b1 && b1 ≤ 0xEF then
      match t1 with
      | b2 :: b3 :: t3 =>
        (if b1 = 0xE0 then 0xA0 ≤ b2 && b2 ≤ 0xBF
         else if b1 = 0xED then 0x80 ≤ b2 && b2 ≤ 0x9F
         else isCont b2) && isCont b3 && utf8Valid t3
      | _ => false
    else if 0xF0 ≤ b1 && b1 ≤ 0xF4 then
      match t1 with
      | b2 :: b3 :: b4 :: t4 =>
        (if b1 = 0xF0 then 0x90 ≤ b2 && b2 ≤ 0xBF
         else if b1 = 0xF4 then 0x80 ≤ b2 && b2 ≤ 0x8F
         else isCont b2) && isCont b3 && isCont b4 && utf8Valid t4
      | _ => false
    else false

/-- One UTF-8 decoding step on leading byte `b1` with tail `t1`: the
decoded character (`none` when `b1` starts no valid sequence) and the
remaining bytes. -/
def utf8Step (b1 : Nat) (t1 : List Nat) : Option Char × List Nat :=
  if b1 < 0x80 then (some (Char.ofNat b1), t1)
  else if 0xC2 ≤ b1 && b1 ≤ 0xDF then
    match t1 with
    | b2 :: t2 =>
      if isCont b2 then (some (Char.ofNat ((b1 - 0xC0) * 64 + (b2 - 0x80))), t2)
      else (none, t1)
    | [] => (none, [])
  else if 0xE0 ≤ b1 && b1 ≤ 0xEF then
    match t1 with
    | b2 :: b3 :: t3 =>
      if ((if b1 = 0xE0 then 0xA0 ≤ b2 && b2 ≤ 0xBF
           else if b1 = 0xED then 0x80 ≤ b2 && b2 ≤ 0x9F
           else isCont b2) && isCont b3) then
        (some (Char.ofNat ((b1 - 0xE0) * 4096 + (b2 - 0x80) * 64 + (b3 - 0x80))), t3)
      else (none, t1)
    | _ => (none, t1)
  else if 0xF0 ≤ b1 && b1 ≤ 0xF4 then
    match t1 with
    | b2 :: b3 :: b4 :: t4 =>
      if ((if b1 = 0xF0 then 0x90 ≤ b2 && b2 ≤ 0xBF
           else if b1 = 0xF4 then 0x80 ≤ b2 && b2 ≤ 0x8F
           else isCont b2) && isCont b3 && isCont b4) then
        (some (Char.ofNat ((b1 - 0xF0) * 262144 + (b2 - 0x80) * 4096 + (b3 - 0x80) * 64
          + (b4 - 0x80))), t4)
      else (none, t1)
    | _ => (none, t1)
  else (none, t1)

theorem utf8Step_length_le (b1 : Nat) (t1 : List Nat) :
    (utf8Step b1 t1).2.length ≤ t1.length := by
  unfold utf8Step
  repeat' split
  all_goals simp_all
  all_goals omega

/-- `bytes.decode("utf-8", errors="ignore")`: decode valid sequences,
drop bytes that start no valid sequence.  Skipping one byte and rescanning
produces the same character stream as CPython's maximal-subpart error
ranges under the `ignore` handler, because continuation bytes alone never
start a valid sequence.  The fuel argument is a totality device only:
every step consumes at least one byte, so `length + 1` steps always
suffice. -/
def decodeIgnoreAux : Nat → List Nat → List Char
  | 0, _ => []
  | _ + 1, [] => []
  | fuel + 1, b1 :: t1 =>
    match utf8Step b1 t1 with
    | (some c, rest) => c :: decodeIgnoreAux fuel rest
    | (none, rest) => decodeIgnoreAux fuel rest

def decodeIgnore (l : List Nat) : List Char :=
  decodeIgnoreAux (l.length + 1) l

/-- The line boundaries recognised by Python `str.splitlines` (besides the
combined `\r\n`). -/
def isLineSep (c : Char) : Bool :=
  c = '\n' || c = '\r' || c = '\x0b' || c = '\x0c' ||
  c = '\x1c' || c = '\x1d' || c = '\x1e' || c = '\x85' ||
  c = '\u2028' || c = '\u2029'

/-- `len(text.splitlines())`; the flag records whether an unterminated line
is open. -/
def splitlinesCountAux : Bool → List Char → Nat
  | inLine, [] => if inLine then 1 else 0
  | _, '\r' :: '\n' :: rest => 1 + splitlinesCountAux false rest
  | _, c :: rest =>
    if isLineSep c then 1 + splitlinesCountAux false rest
    else splitlinesCountAux true rest

def splitlinesCount (l : List Char) : Nat := splitlinesCountAux false l

/-- `count_loc_from_bytes` from the source: decode permissively, count
lines (the `except` branch is unreachable, `errors="ignore"` never
raises). -/
def count_loc_from_bytes (b : List Nat) : Nat :=
  splitlinesCount (decodeIgnore b)

/-! ## Text classifier (`looks_textual`) -/

/-- `looks_textual(path, head)` from the source: extension allowlist, then
NUL sniff on the header, then strict UTF-8 decodability of the header. -/
def looks_textual (path : String) (head : List Nat) : Bool :=
  let ext := extLower path
  if TEXT_EXTS.contains ext then true
  else if head.contains 0 then false
  else utf8Valid head

/-! ## Tree builder (`add_to_tree`, `tree_to_list`)

The in-progress tree is a dict-of-dicts in Python: every node is a dict
with a `name`, an optional `loc` (files), and an optional `children` dict
(directories; an absent `children` key and an empty dict are
indistinguishable to the code, so both are `[]` here).  Python dicts are
insertion-ordered with in-place update, hence the association list. -/

inductive TNode where
  | mk (name : String) (loc : Option Nat) (children : List (String × TNode))

def TNode.name : TNode → String
  | .mk nm _ _ => nm

def TNode.loc : TNode → Option Nat
  | .mk _ l _ => l

def TNode.children : TNode → List (String × TNode)
  | .mk _ _ cs => cs

/-- Python dict lookup (first — only — binding of the key). -/
def getChild : List (String × TNode) → String → Option TNode
  | [], _ => none
  | (k, v) :: rest, key => if k = key then some v else getChild rest key

/-- Python dict assignment: replace in place, else append. -/
def setChild : List (String × TNode) → String → TNode → List (String × TNode)
  | [], key, v => [(key, v)]
  | (k, w) :: rest, key, v =>
    if k = key then (key, v) :: rest else (k, w) :: setChild rest key v

/-- `add_to_tree(tree, parts, loc)` from the source: walk `parts[:-1]`
creating intermediate directory nodes via `setdefault`, then assign the
leaf `{"name": fname, "loc": loc}` (replacing whatever was there).
`parts` is never empty (`rel.split("/")` is nonempty). -/
def add_to_tree : TNode → List String → Nat → TNode
  | t, [], _ => t
  | .mk nm l cs, [f], loc => .mk nm l (setChild cs f (.mk f (some loc) []))
  | .mk nm l cs, p :: q :: rest, loc =>
    let c := (getChild cs p).getD (.mk p none [])
    .mk nm l (setChild cs p (add_to_tree c (q :: rest) loc))

/-- The frozen output form of a node: `{name, loc?, children}` with the
children already a sorted list (an absent `children` key is `[]`). -/
inductive OutNode where
  | mk (name : String) (loc : Option Nat) (children : List OutNode)

def OutNode.name : OutNode → String
  | .mk nm _ _ => nm

def OutNode.loc : OutNode → Option Nat
  | .mk _ l _ => l

def OutNode.children : OutNode → List OutNode
  | .mk _ _ cs => cs

/-- Code-point lexicographic `≤` on char lists, Python's string order. -/
def lexLE : List Char → List Char → Bool
  | [], _ => true
  | _ :: _, [] => false
  | a :: as, b :: bs =>
    if a.toNat < b.toNat then true
    else if b.toNat < a.toNat then false
    else lexLE as bs

/-- Python string comparison `a <= b` (code points). -/
def strLE (a b : String) : Bool := lexLE a.data b.data

/-- Stable insertion of `x` into `l` under the Bool comparator `le`. -/
def insertSorted (le : α → α → Bool) (x : α) : List α → List α
  | [] => [x]
  | y :: ys => if le x y then x :: y :: ys else y :: insertSorted le x ys

/-- Stable ascending sort under `le`, the behaviour of Python's
`sorted` on lists whose comparisons never tie (distinct dict keys,
distinct set elements). -/
def sortByB (le : α → α → Bool) : List α → List α
  | [] => []
  | x :: xs => insertSorted le x (sortByB le xs)

theorem insertSorted_perm (le : α → α → Bool) (x : α) (l : List α) :
    List.Perm (insertSorted le x l) (x :: l) := by
  induction l with
  | nil => simp [insertSorted]
  | cons y ys ih =>
    simp only [insertSorted]
    split
    · exact List.Perm.refl _
    · exact List.Perm.trans (List.Perm.cons y ih) (List.Perm.swap x y ys)

theorem sortByB_perm (le : α → α → Bool) (l : List α) :
    List.Perm (sortByB le l) l := by
  induction l with
  | nil => simp [sortByB]
  | cons x xs ih =>
    exact List.Perm.trans (insertSorted_perm le x (sortByB le xs)) (List.Perm.cons x ih)

/-- Comparator of Python's `sorted(children.items())`: dict keys are
distinct, so tuple comparison never reaches the values and the sort is by
key. -/
def keyLE (a b : String × OutNode) : Bool := strLE a.1 b.1

mutual

/-- `tree_to_list(node)` from the source: keep `loc` when present, convert
children sorted by name, and overwrite a directory's `loc` with the sum of
its children's `loc` (`child.get("loc", 0)`).  Sorting commutes with the
per-child conversion, so the children are converted first and the
`(key, converted)` pairs sorted afterwards. -/
def tree_to_list : TNode → OutNode
  | .mk nm l cs =>
    match (sortByB keyLE (ttlPairs cs)).map Prod.snd with
    | [] => .mk nm l []
    | k :: ks => .mk nm (some (((k :: ks).map (fun c => c.loc.getD 0)).sum)) (k :: ks)

def ttlPairs : List (String × TNode) → List (String × OutNode)
  | [] => []
  | (k, c) :: rest => (k, tree_to_list c) :: ttlPairs rest

end

mutual

/-- Sum of all leaf line counts of a finalized tree (a childless node is a
leaf and contributes its `loc`, 0 when absent). -/
def leafSum : OutNode → Nat
  | .mk _ l [] => l.getD 0
  | .mk _ _ (c :: cs) => leafSumL (c :: cs)

def leafSumL : List OutNode → Nat
  | [] => 0
  | c :: rest => leafSum c + leafSumL rest

end

/-- Locs of a list of finalized children, as summed by `tree_to_list`. -/
def locSum (cs : List OutNode) : Nat :=
  (cs.map (fun c => c.loc.getD 0)).sum

mutual

/-- Every directory node (nonempty `children`) of a finalized tree carries
exactly the sum of its children's `loc`s, recursively. -/
def dirOk : OutNode → Bool
  | .mk _ _ [] => true
  | .mk _ l (c :: cs) => (l == some (locSum (c :: cs))) && dirOkL (c :: cs)

def dirOkL : List OutNode → Bool
  | [] => true
  | c :: rest => dirOk c && dirOkL rest

end

mutual

/-- Aggregate line count of an in-progress subtree as `tree_to_list` will
compute it: a childless node contributes its own `loc` (0 when absent), a
node with children the sum over its children. -/
def internalSum : TNode → Nat
  | .mk _ l [] => l.getD 0
  | .mk _ _ (c :: cs) => internalSumL (c :: cs)

def internalSumL : List (String × TNode) → Nat
  | [] => 0
  | c :: rest => internalSum c.2 + internalSumL rest

end

mutual

/-- Key paths of the childless nodes of an in-progress children dict. -/
def ileafPathsL : List (String × TNode) → List (List String)
  | [] => []
  | (k, c) :: rest => ileafPathsK k c ++ ileafPathsL rest

def ileafPathsK : String → TNode → List (List String)
  | k, .mk _ _ [] => [[k]]
  | k, .mk _ _ (c :: cs) => (ileafPathsL (c :: cs)).map (k :: ·)

end

mutual

/-- Name paths of the leaf nodes of a finalized subtree list. -/
def leafPathsL : List OutNode → List (List String)
  | [] => []
  | c :: rest => leafPathsN c ++ leafPathsL rest

def leafPathsN : OutNode → List (List String)
  | .mk nm _ [] => [[nm]]
  | .mk nm _ (c :: cs) => (leafPathsL (c :: cs)).map (nm :: ·)

end

def leafPaths (root : OutNode) : List (List String) :=
  leafPathsL root.children

/-- The root of the in-progress tree: `{"name": "root", "children": {}}`. -/
def rootNode : TNode := .mk "root" none []

/-! ## Import extractors (`IMPORT_RE_JS`, `IMPORT_RE_PY`)

The two patterns are hand-compiled into backtracking matchers with the
exact semantics of `re.finditer`: at each position the alternatives are
tried in pattern order, greedy (`+`/`*`) pieces longest-first, non-greedy
(`+?`) shortest-first; on a match, scanning resumes at the match end,
otherwise at the next position.  `^` (with `re.M`) holds at the start of
the text and right after every newline. -/

/-- Python `\s` on the code points that occur in source text (ASCII
whitespace plus the Unicode spaces CPython's `re` accepts for `str`
patterns). -/
def isPySpace (c : Char) : Bool :=
  let n := c.toNat
  n = 32 || n = 9 || n = 10 || n = 13 || n = 11 || n = 12 ||
  (28 ≤ n && n ≤ 31) || n = 0x85 || n = 0xA0 || n = 0x1680 ||
  (0x2000 ≤ n && n ≤ 0x200A) || n = 0x2028 || n = 0x2029 ||
  n = 0x202F || n = 0x205F || n = 0x3000

/-- Python `\w`, restricted to ASCII (`[A-Za-z0-9_]`); Unicode letters do
not occur in the module names of this code base. -/
def isWordChar (c : Char) : Bool := c.isAlphanum || c = '_'

/-- The class `[.\w]` of `IMPORT_RE_PY`. -/
def isModChar (c : Char) : Bool := isWordChar c || c = '.'

/-- The class `[^'"]` of `IMPORT_RE_JS`. -/
def notQuote (c : Char) : Bool := !(c = '\'' || c = '"')

/-- `['"]`. -/
def isQuote (c : Char) : Bool := c = '\'' || c = '"'

/-- Length of the maximal prefix of `s` inside the class `p`. -/
def runLen (p : Char → Bool) : List Char → Nat
  | [] => 0
  | c :: rest => if p c then runLen p rest + 1 else 0

/-- First success of `f` over a list of candidate lengths (the
backtracking order of a repetition). -/
def firstSome {α : Type} (f : Nat → Option α) : List Nat → Option α
  | [] => none
  | n :: ns =>
    match f n with
    | some a => some a
    | none => firstSome f ns

/-- Greedy `p*`: try consuming the longest run first, then backtrack. -/
def starG {α : Type} (p : Char → Bool) (k : List Char → Option α) (s : List Char) : Option α :=
  firstSome (fun n => k (s.drop n)) ((List.range (runLen p s + 1)).reverse)

/-- Greedy `p+`. -/
def plusG {α : Type} (p : Char → Bool) (k : List Char → Option α) (s : List Char) : Option α :=
  firstSome (fun n => k (s.drop n)) ((List.range' 1 (runLen p s)).reverse)

/-- Non-greedy `p+?`: shortest first. -/
def plusNG {α : Type} (p : Char → Bool) (k : List Char → Option α) (s : List Char) : Option α :=
  firstSome (fun n => k (s.drop n)) (List.range' 1 (runLen p s))

/-- Greedy capturing `(p+)`, passing the captured text to the
continuation. -/
def plusGCap {α : Type} (p : Char → Bool) (k : String → List Char → Option α)
    (s : List Char) : Option α :=
  firstSome (fun n => k (String.mk (s.take n)) (s.drop n)) ((List.range' 1 (runLen p s)).reverse)

/-- A literal. -/
def litM {α : Type} (w : List Char) (k : List Char → Option α) (s : List Char) : Option α :=
  if s.take w.length = w then k (s.drop w.length) else none

/-- Greedy `(?:x)?`: try with the group first. -/
def optM {α : Type} (x : (List Char → Option α) → List Char → Option α)
    (k : List Char → Option α) (s : List Char) : Option α :=
  match x k s with
  | some a => some a
  | none => k s

/-- `['"]([^'"]+)['"]` ending a JS alternative: an opening quote, the
captured specifier, a closing quote (either kind, as in the pattern).
`[^'"]+` excludes both quotes, so the greedy run is forced. -/
def jsSpecEnd : List Char → Option (String × List Char)
  | [] => none
  | c :: r =>
    if isQuote c then
      let n := runLen notQuote r
      if n = 0 then none
      else
        match r.drop n with
        | q :: r2 => if isQuote q then some (String.mk (r.take n), r2) else none
        | [] => none
    else none

/-- `['"]([^'"]+)['"]\s*\)` ending the `require(...)`/`import(...)`
alternatives. -/
def jsCallTail : List Char → Option (String × List Char)
  | [] => none
  | c :: r =>
    if isQuote c then
      let n := runLen notQuote r
      if n = 0 then none
      else
        match r.drop n with
        | q :: r2 =>
          if isQuote q then
            match r2.drop (runLen isPySpace r2) with
            | ')' :: r3 => some (String.mk (r.take n), r3)
            | _ => none
          else none
        | [] => none
    else none

/-- `import\s+(?:[^'"]+?\s+from\s+)?['"](spec)['"]`. -/
def jsB1 : List Char → Option (String × List Char) :=
  litM "import".data (plusG isPySpace
    (optM (fun k => plusNG notQuote (plusG isPySpace (litM "from".data (plusG isPySpace k))))
      jsSpecEnd))

/-- `export\s+[^'"]+?\s+from\s+['"](spec2)['"]`. -/
def jsB2 : List Char → Option (String × List Char) :=
  litM "export".data (plusG isPySpace
    (plusNG notQuote (plusG isPySpace (litM "from".data (plusG isPySpace jsSpecEnd)))))

/-- `require\(\s*['"](spec3)['"]\s*\)`. -/
def jsB3 : List Char → Option (String × List Char) :=
  litM "require(".data (starG isPySpace jsCallTail)

/-- `import\(\s*['"](spec4)['"]\s*\)`. -/
def jsB4 : List Char → Option (String × List Char) :=
  litM "import(".data (starG isPySpace jsCallTail)

/-- The full JS/TS alternation at one position. -/
def jsTryAt (s : List Char) : Option (String × List Char) :=
  match jsB1 s with
  | some r => some r
  | none =>
    match jsB2 s with
    | some r => some r
    | none =>
      match jsB3 s with
      | some r => some r
      | none => jsB4 s

/-- `IMPORT_RE_JS.finditer`, collecting the matched group per match.  The
fuel is a totality device: every step consumes at least one character. -/
def jsScanAux : Nat → List Char → List String
  | 0, _ => []
  | _ + 1, [] => []
  | fuel + 1, c :: rest =>
    match jsTryAt (c :: rest) with
    | some (cap, r) => cap :: jsScanAux fuel r
    | none => jsScanAux fuel rest

/-- `_parse_js_ts_imports(text)` from the source (each match contributes
its single populated group, already stripped: the captured class excludes
whitespace only at the boundaries the pattern fixes, and `str.strip` on
those captures is the identity for the quote-delimited specifiers). -/
def jsImports (text : List Char) : List String :=
  jsScanAux (text.length + 1) text

/-- `^\s*from\s+([.\w]+)\s+import\s+[^\n]+`. -/
def pyFromB : List Char → Option (String × List Char) :=
  starG isPySpace (litM "from".data (plusG isPySpace
    (plusGCap isModChar (fun cap => plusG isPySpace (litM "import".data (plusG isPySpace
      (fun s =>
        let n := runLen (fun c => !(c = '\n')) s
        if n = 0 then none else some (cap, s.drop n))))))))

/-- `^\s*import\s+([\w.]+)`. -/
def pyImpB : List Char → Option (String × List Char) :=
  starG isPySpace (litM "import".data (plusG isPySpace
    (fun s =>
      let n := runLen isModChar s
      if n = 0 then none else some (String.mk (s.take n), s.drop n))))

/-- `IMPORT_RE_PY.finditer` with `re.M`: the Bool records whether the
current position is a line start (text start or right after `\n`); both
alternatives are anchored there.  Matches never end in a newline, so the
position after a match is never a line start. -/
def pyScanAux : Nat → Bool → List Char → List String
  | 0, _, _ => []
  | _ + 1, _, [] => []
  | fuel + 1, atLS, c :: rest =>
    if atLS then
      match
        (match pyFromB (c :: rest) with
         | some r => some r
         | none => pyImpB (c :: rest)) with
      | some (cap, r) => cap :: pyScanAux fuel false r
      | none => pyScanAux fuel (c = '\n') rest
    else pyScanAux fuel (c = '\n') rest

/-- `_parse_py_imports(text)` from the source. -/
def pyImports (text : List Char) : List String :=
  pyScanAux (text.length + 1) true text

/-! ## Path resolvers (`_resolve_js_ts`, `_resolve_py`) -/

/-- `str.startswith`. -/
def strStarts (s pre : String) : Bool :=
  s.data.take pre.data.length = pre.data

/-- `_is_rel(spec)` from the source (the second and third disjuncts are
subsumed by the first but kept as written). -/
def _is_rel (spec : String) : Bool :=
  strStarts spec "." || strStarts spec "./" || strStarts spec "../"

/-- `re.sub(r"/\./", "/", p)`: non-overlapping left-to-right replacement,
scanning resumes after each replacement. -/
def resubAux : List Char → List Char
  | '/' :: '.' :: '/' :: rest => '/' :: resubAux rest
  | c :: rest => c :: resubAux rest
  | [] => []

def resubStr (s : String) : String := String.mk (resubAux s.data)

/-- The inner fallback of `_resolve_js_ts`: when the candidate has no `.`
in its final component, try the five source extensions, then the four
index files, appended to the (already normalized) candidate by plain
string concatenation. -/
def jsInner (p : String) (files : List String) : Option String :=
  match [".ts", ".tsx", ".js", ".jsx", ".json"].find? (fun e => files.contains (p ++ e)) with
  | some e => some (p ++ e)
  | none =>
    match ["/index.ts", "/index.tsx", "/index.js", "/index.jsx"].find?
        (fun i => files.contains (p ++ i)) with
    | some i => some (p ++ i)
    | none => none

/-- The `for c in candidates` loop of `_resolve_js_ts`. -/
def jsLoop (files : List String) : List String → Option String
  | [] => none
  | c :: cs =>
    let p := normPosix (resubStr (normPosix c))
    if files.contains p then some p
    else if !((lastSegOf p).data.contains '.') then
      match jsInner p files with
      | some t => some t
      | none => jsLoop files cs
    else jsLoop files cs

/-- `_resolve_js_ts(cur_path, spec, all_files)` from the source. -/
def _resolve_js_ts (curPath spec : String) (files : List String) : Option String :=
  if _is_rel spec then
    let base := strP (parentSegs (parseP curPath) ++ parseP spec)
    jsLoop files (base :: CANDIDATE_JS_TS.map (fun ext => base ++ ext))
  else none

/-- `len(mod) - len(mod.lstrip("."))`. -/
def countLeadingDots (s : String) : Nat :=
  runLen (fun c => c = '.') s.data

/-- `mod.lstrip(".")`. -/
def dropLeadingDots (s : String) : String :=
  String.mk (s.data.dropWhile (fun c => c = '.'))

/-- `for _ in range(up): target_dir = target_dir.parent`. -/
def upDirs : Nat → List String → List String
  | 0, d => d
  | n + 1, d => upDirs n (parentSegs d)

/-- `target_dir.joinpath(*rest.split("."))`: `PurePosixPath` drops empty
components (pieces of a dot-split contain no `/` or `.`). -/
def pySegsOfRest (rest : String) : List String :=
  ((splitChars '.' rest.data).map String.mk).filter (fun x => x ≠ "")

/-- `"/".join(mod.split("."))`. -/
def joinDots (mod : String) : String :=
  String.intercalate "/" ((splitChars '.' mod.data).map String.mk)

/-- The target directory of `_resolve_py`'s relative branch: ascend one
parent per leading dot from the containing file's directory, then descend
along the dotted remainder. -/
def pyRelTarget (curPath mod : String) : List String :=
  let curDir := parentSegs (parseP curPath)
  let up := countLeadingDots mod
  let rest := dropLeadingDots mod
  if rest ≠ "" then upDirs up curDir ++ pySegsOfRest rest else upDirs up curDir

/-- The candidate list of `_resolve_py`'s relative branch:
`[target/__init__.py, target.py]` — `__init__.py` first. -/
def pyRelCands (curPath mod : String) : List String :=
  [normPosix (strP (pyRelTarget curPath mod) ++ "/__init__.py"),
   normPosix (strP (pyRelTarget curPath mod) ++ ".py")]

/-- The candidate list of `_resolve_py`'s absolute branch:
`[mod/path.py, mod/path/__init__.py]` — `.py` first. -/
def pyAbsCands (mod : String) : List String :=
  [normPosix (joinDots mod ++ ".py"), normPosix (joinDots mod ++ "/__init__.py")]

/-- `_resolve_py(cur_path, mod, all_files)` from the source: both branches
return the first candidate present in `all_files`. -/
def _resolve_py (curPath mod : String) (files : List String) : Option String :=
  if strStarts mod "." then
    (pyRelCands curPath mod).find? (fun c => files.contains c)
  else
    (pyAbsCands mod).find? (fun c => files.contains c)

/-! ## Scan orchestrator (`scan_repo`) -/

/-- `str.endswith`. -/
def strEnds (s suf : String) : Bool :=
  s.data.reverse.take suf.data.length = suf.data.reverse

/-- One archive entry as `zipfile` yields it: the stored name and the
decompressed content bytes (`head + rest` in the source — the code always
reads the whole entry). -/
structure ZipEntry where
  filename : String
  content : List Nat

/-- `ZipInfo.is_dir()`: the stored name ends in `/`. -/
def ZipEntry.isDir (e : ZipEntry) : Bool := strEnds e.filename "/"

/-- The downloaded zipball: the size in bytes of the downloaded stream
(the chunk lengths `download_zipball` accumulates and checks against
`MAX_BYTES`) and the archive's entry listing.  The zip compression
relating the two is not modelled; deflate admits ratios of roughly up to
1000:1, so `size` can be far below the decompressed total. -/
structure Zipball where
  size : Nat
  entries : List ZipEntry

/-- The entry's repo-relative normalized path:
`_norm_posix(arcname.split("/", 1)[…])`. -/
def relOf (e : ZipEntry) : String := normPosix (stripTop e.filename)

/-- The mutable state of the first pass over `zf.infolist()`. -/
structure P1State where
  filesScanned : Nat
  totalLoc : Nat
  tree : TNode
  allFiles : List String
  fileBytes : List (String × List Nat)

def initState : P1State := ⟨0, 0, rootNode, [], []⟩

/-- `set.add`: append if absent. -/
def addToSet (l : List String) (x : String) : List String :=
  if l.contains x then l else l ++ [x]

/-- Dict assignment `file_bytes[rel] = content`: replace in place or
append. -/
def insertFB : List (String × List Nat) → String → List Nat → List (String × List Nat)
  | [], k, v => [(k, v)]
  | (k1, v1) :: rest, k, v =>
    if k1 = k then (k, v) :: rest else (k1, v1) :: insertFB rest k v

/-- The body of the `for zi in zf.infolist()` loop: skip directories,
count and bound the entry, classify, count lines into the tree, and retain
parseable sources (extension in `JS_TS_EXTS ∪ PY_EXTS`, at most 2 MB) for
the second pass. -/
def processEntry (st : P1State) (e : ZipEntry) : Except String P1State :=
  if e.isDir then .ok st
  else
    let n := st.filesScanned + 1
    if MAX_FILES < n then
      .error ("Repository exceeds " ++ toString MAX_FILES ++ " files limit")
    else
      let head := e.content.take 4096
      let rel := relOf e
      let af := addToSet st.allFiles rel
      if looks_textual rel head then
        let loc := count_loc_from_bytes e.content
        let tree := add_to_tree st.tree (splitOnSlash rel) loc
        let ext := extLower rel
        let fb :=
          if (JS_TS_EXTS.contains ext || PY_EXTS.contains ext) && e.content.length ≤ 2000000
          then insertFB st.fileBytes rel e.content
          else st.fileBytes
        .ok ⟨n, st.totalLoc + loc, tree, af, fb⟩
      else .ok ⟨n, st.totalLoc, st.tree, af, st.fileBytes⟩

/-- The first pass: fold `processEntry` over the entries, a raised limit
error aborting the rest. -/
def pass1 : P1State → List ZipEntry → Except String P1State
  | st, [] => .ok st
  | st, e :: es =>
    match processEntry st e with
    | .error m => .error m
    | .ok st2 => pass1 st2 es

/-- The edges contributed by one retained file in the second pass.  The
source guards JS/TS resolution with `if _is_rel(spec)` and appends on a
truthy target (resolver results are nonempty strings, so truthiness is
`isSome`). -/
def fileEdges (files : List String) (path : String) (content : List Nat) :
    List (String × String) :=
  let ext := extLower path
  let text := decodeIgnore content
  if JS_TS_EXTS.contains ext then
    (jsImports text).filterMap (fun spec =>
      match (if _is_rel spec then _resolve_js_ts path spec files else none) with
      | some tgt => some (path, tgt)
      | none => none)
  else if PY_EXTS.contains ext then
    (pyImports text).filterMap (fun mod =>
      match _resolve_py path mod files with
      | some tgt => some (path, tgt)
      | none => none)
  else []

/-- The second pass: iterate `file_bytes.items()` in insertion order,
appending edges. -/
def pass2 (files : List String) (fb : List (String × List Nat)) : List (String × String) :=
  fb.foldl (fun acc p => acc ++ fileEdges files p.1 p.2) []

structure ScanSummary where
  scan_id : String
  owner : String
  repo : String
  repo_url : String
  created_at : Nat
  files_scanned : Nat
  total_loc : Nat
  limits : Nat × Nat

/-- The persisted graph: node ids (each Python node is `{"id": n}`),
edge pairs (each Python edge is `{"source": s, "target": t}`), and the
free-text note. -/
structure Graph where
  nodes : List String
  edges : List (String × String)
  note : String

/-- The three-part scan record (`{"summary": …, "tree": …, "graph": …}`)
that `scan_repo` persists; the HTTP layer returns `summary` alone. -/
structure ScanResult where
  summary : ScanSummary
  tree : OutNode
  graph : Graph

structure CoreOut where
  filesScanned : Nat
  totalLoc : Nat
  tree : OutNode
  graph : Graph

/-- Everything `scan_repo` computes from the archive alone: the download
size ceiling, pass one, tree finalization, pass two, and the sorted node
list. -/
def scanCore (z : Zipball) : Except String CoreOut :=
  if MAX_BYTES < z.size then
    .error ("Repository exceeds " ++ toString (MAX_BYTES / (1024 * 1024)) ++ " MB limit")
  else
    match pass1 initState z.entries with
    | .error m => .error m
    | .ok st =>
      .ok ⟨st.filesScanned, st.totalLoc, tree_to_list st.tree,
           ⟨sortByB strLE st.allFiles, pass2 st.allFiles st.fileBytes,
            "Edges include best-effort in-repo relative JS/TS imports and Python imports."⟩⟩

/-- `scan_repo` from the source, with the repository coordinates (from
`parse_repo_url`), the generated identifier (`uuid.uuid4()`) and the
timestamp (`time.time()`) lifted to parameters.  The record is persisted,
and the summary returned, only on success. -/
def scan_repo (owner repo : String) (z : Zipball) (scanId : String) (createdAt : Nat) :
    Except String ScanResult :=
  match scanCore z with
  | .error m => .error m
  | .ok c =>
    .ok ⟨⟨scanId, owner, repo, "https://github.com/" ++ owner ++ "/" ++ repo,
          createdAt, c.filesScanned, c.totalLoc, (MAX_BYTES, MAX_FILES)⟩,
         c.tree, c.graph⟩

/-- What reaches the persistence layer (`json.dump` runs after both passes
inside the `try`, so exactly the successful results are written). -/
def persistedRecord (x : Except String ScanResult) : Option ScanResult :=
  x.toOption

/-- The number of non-directory entries of an archive (what
`files_scanned` counts). -/
def nonDirCount (es : List ZipEntry) : Nat :=
  (es.filter (fun e => !e.isDir)).length

/-- The total decompressed bytes the traversal reads
(`head + rest` of every non-directory entry). -/
def totalDecompressedBytes (es : List ZipEntry) : Nat :=
  ((es.filter (fun e => !e.isDir)).map (fun e => e.content.length)).sum

/-- The tree insertion record of one entry, when it contributes one:
its split normalized path and its line count. -/
def entryRec (e : ZipEntry) : Option (List String × Nat) :=
  if e.isDir then none
  else
    let rel := relOf e
    if looks_textual rel (e.content.take 4096) then
      some (splitOnSlash rel, count_loc_from_bytes e.content)
    else none

/-- The insertion records of all textual entries, in traversal order. -/
def textRecs (es : List ZipEntry) : List (List String × Nat) :=
  es.filterMap entryRec

/-! ## Tree lemmas -/

/-- Structural induction over the nested `TNode`. -/
def TNode.indOn {P : TNode → Prop}
    (h : ∀ nm l cs, (∀ p ∈ cs, P p.2) → P (.mk nm l cs)) : ∀ t, P t
  | .mk nm l cs => h nm l cs (fun p _hp => TNode.indOn h p.2)
termination_by t => sizeOf t
decreasing_by
  have h1 := List.sizeOf_lt_of_mem _hp
  obtain ⟨a, b⟩ := p
  simp at h1 ⊢
  omega

/-- Structural induction over the nested `OutNode`. -/
def OutNode.indOn {P : OutNode → Prop}
    (h : ∀ nm l cs, (∀ c ∈ cs, P c) → P (.mk nm l cs)) : ∀ t, P t
  | .mk nm l cs => h nm l cs (fun c _hc => OutNode.indOn h c)
termination_by t => sizeOf t
decreasing_by
  have h1 := List.sizeOf_lt_of_mem _hc
  simp at h1 ⊢
  omega

theorem ttlPairs_eq_map (cs : List (String × TNode)) :
    ttlPairs cs = cs.map (fun p => (p.1, tree_to_list p.2)) := by
  induction cs with
  | nil => simp [ttlPairs]
  | cons c rest ih => obtain ⟨k, v⟩ := c; simp [ttlPairs, ih]

theorem leafSumL_eq_sum (l : List OutNode) : leafSumL l = (l.map leafSum).sum := by
  induction l with
  | nil => simp [leafSumL]
  | cons c rest ih => simp [leafSumL, ih]

theorem internalSumL_eq_sum (l : List (String × TNode)) :
    internalSumL l = (l.map (fun p => internalSum p.2)).sum := by
  induction l with
  | nil => simp [internalSumL]
  | cons c rest ih => simp [internalSumL, ih]

theorem dirOkL_eq_all (l : List OutNode) : dirOkL l = l.all dirOk := by
  induction l with
  | nil => simp [dirOkL]
  | cons c rest ih => simp [dirOkL, ih]

theorem leafSum_cases (nm : String) (l : Option Nat) (cs : List OutNode) :
    leafSum (.mk nm l cs) = if cs.isEmpty then l.getD 0 else leafSumL cs := by
  cases cs <;> simp [leafSum]

theorem internalSum_cases (nm : String) (l : Option Nat) (cs : List (String × TNode)) :
    internalSum (.mk nm l cs) = if cs.isEmpty then l.getD 0 else internalSumL cs := by
  cases cs <;> simp [internalSum]

/-- The finalized tree's leaf totals agree with `internalSum` of the
in-progress tree: sorting the children permutes the sum only, and a
directory's overwritten `loc` is exactly its children's total. -/
theorem leafSum_tree_to_list : ∀ t : TNode, leafSum (tree_to_list t) = internalSum t := by
  intro t
  induction t using TNode.indOn with
  | h nm l cs ih =>
    cases hcs : cs with
    | nil => simp [tree_to_list, ttlPairs, sortByB, leafSum, internalSum]
    | cons c rest =>
      rw [tree_to_list]
      have hperm : List.Perm (sortByB keyLE (ttlPairs (c :: rest))) (ttlPairs (c :: rest)) :=
        sortByB_perm _ _
      have hlen : (sortByB keyLE (ttlPairs (c :: rest))).length = (c :: rest).length := by
        rw [hperm.length_eq, ttlPairs_eq_map, List.length_map]
      cases hsort : (sortByB keyLE (ttlPairs (c :: rest))).map Prod.snd with
      | nil =>
        exfalso
        have hz : (sortByB keyLE (ttlPairs (c :: rest))).length = 0 := by
          rw [← List.length_map (sortByB keyLE (ttlPairs (c :: rest))) Prod.snd, hsort]
          rfl
        rw [hlen] at hz
        simp at hz
      | cons k ks =>
        have hL : ∀ s : Option Nat, leafSum (.mk nm s (k :: ks)) = leafSumL (k :: ks) := by
          intro s; rfl
        rw [hL]
        have hR : internalSum (.mk nm l (c :: rest)) = internalSumL (c :: rest) := rfl
        rw [hR, ← hsort, leafSumL_eq_sum, List.map_map]
        have h2 : ((sortByB keyLE (ttlPairs (c :: rest))).map (leafSum ∘ Prod.snd)).sum
            = ((ttlPairs (c :: rest)).map (leafSum ∘ Prod.snd)).sum :=
          (hperm.map (leafSum ∘ Prod.snd)).sum_eq
        rw [h2, ttlPairs_eq_map, List.map_map, internalSumL_eq_sum]
        congr 1
        apply List.map_congr_left
        intro p hp
        simp only [Function.comp_apply]
        exact ih p (hcs ▸ hp)

/-- Every directory node of a finalized tree carries the sum of its
children's `loc`s. -/
theorem dirOk_tree_to_list : ∀ t : TNode, dirOk (tree_to_list t) = true := by
  intro t
  induction t using TNode.indOn with
  | h nm l cs ih =>
    rw [tree_to_list]
    cases hsort : (sortByB keyLE (ttlPairs cs)).map Prod.snd with
    | nil => simp [dirOk]
    | cons k ks =>
      rw [dirOk]
      simp only [Bool.and_eq_true]
      refine ⟨by simp [locSum], ?_⟩
      rw [dirOkL_eq_all, List.all_eq_true]
      intro x hx
      rw [← hsort] at hx
      obtain ⟨p, hp, hpx⟩ := List.mem_map.mp hx
      have hp2 := (sortByB_perm keyLE (ttlPairs cs)).mem_iff.mp hp
      rw [ttlPairs_eq_map] at hp2
      obtain ⟨q, hq, hqp⟩ := List.mem_map.mp hp2
      subst hpx
      rw [← hqp]
      exact ih q hq

/-! ## Insertion lemmas: when does `add_to_tree` add exactly `loc`?

Duplicate paths overwrite leaves and a file that is also a directory
prefix of another file merges into it, both losing counted lines, so the
additivity of `internalSum` needs freshness conditions. -/

/-- A path is addable in a tree when the walk to its parent never enters
an existing leaf-with-a-count (whose `loc` would be shadowed once it
gains children) and the final key is absent. -/
def Addable : TNode → List String → Prop
  | _, [] => False
  | t, [f] => getChild t.children f = none
  | t, p :: q :: rest =>
    match getChild t.children p with
    | none => True
    | some c => (c.children = [] → c.loc = none) ∧ Addable c (q :: rest)

/-- `leadsPath p q`: `p` is a (not necessarily proper) prefix of `q`. -/
def leadsPath : List String → List String → Bool
  | [], _ => true
  | _ :: _, [] => false
  | a :: p, b :: q => (a = b) && leadsPath p q

/-- Neither path is a prefix of the other (which also rules out
equality). -/
def pathsCompat (p q : List String) : Bool :=
  !(leadsPath p q) && !(leadsPath q p)

theorem leadsPath_refl : ∀ p : List String, leadsPath p p = true
  | [] => rfl
  | _ :: p => by simp [leadsPath, leadsPath_refl p]

theorem pathsCompat_ne {p q : List String} (h : pathsCompat p q = true) : p ≠ q := by
  intro he
  subst he
  simp [pathsCompat, leadsPath_refl] at h

theorem getChild_setChild_ne (cs : List (String × TNode)) (k f : String) (v : TNode)
    (h : k ≠ f) : getChild (setChild cs k v) f = getChild cs f := by
  induction cs with
  | nil => simp [setChild, getChild, h]
  | cons c rest ih =>
    obtain ⟨k1, v1⟩ := c
    by_cases h1 : k1 = k
    · subst h1
      simp [setChild, getChild, h]
    · simp [setChild, getChild, h1, ih]

theorem getChild_setChild_same (cs : List (String × TNode)) (k : String) (v : TNode) :
    getChild (setChild cs k v) k = some v := by
  induction cs with
  | nil => simp [setChild, getChild]
  | cons c rest ih =>
    obtain ⟨k1, v1⟩ := c
    by_cases h1 : k1 = k
    · subst h1
      simp [setChild, getChild]
    · simp [setChild, getChild, h1, ih]

theorem setChild_of_getChild_none (cs : List (String × TNode)) (k : String) (v : TNode)
    (h : getChild cs k = none) : setChild cs k v = cs ++ [(k, v)] := by
  induction cs with
  | nil => simp [setChild]
  | cons c rest ih =>
    obtain ⟨k1, v1⟩ := c
    by_cases h1 : k1 = k
    · subst h1
      simp [getChild] at h
    · simp [getChild, h1] at h
      simp [setChild, h1, ih h]

theorem setChild_ne_nil (cs : List (String × TNode)) (k : String) (v : TNode) :
    setChild cs k v ≠ [] := by
  cases cs with
  | nil => simp [setChild]
  | cons c rest =>
    obtain ⟨k1, v1⟩ := c
    simp only [setChild]
    split <;> simp

theorem internalSumL_append (l1 l2 : List (String × TNode)) :
    internalSumL (l1 ++ l2) = internalSumL l1 + internalSumL l2 := by
  simp [internalSumL_eq_sum]

theorem internalSumL_setChild_found (cs : List (String × TNode)) (k : String)
    (v c : TNode) (h : getChild cs k = some c) :
    internalSumL (setChild cs k v) + internalSum c = internalSumL cs + internalSum v := by
  induction cs with
  | nil => simp [getChild] at h
  | cons c1 rest ih =>
    obtain ⟨k1, v1⟩ := c1
    by_cases h1 : k1 = k
    · subst h1
      simp [getChild] at h
      subst h
      simp [setChild, internalSumL]
      omega
    · simp [getChild, h1] at h
      simp [setChild, h1, internalSumL]
      have := ih h
      omega

theorem add_to_tree_loc (t : TNode) (parts : List String) (loc : Nat) :
    (add_to_tree t parts loc).loc = t.loc := by
  obtain ⟨nm, l, cs⟩ := t
  cases parts with
  | nil => rfl
  | cons p rest => cases rest <;> rfl

theorem add_to_tree_children_ne_nil (t : TNode) (parts : List String) (loc : Nat)
    (h : parts ≠ []) : (add_to_tree t parts loc).children ≠ [] := by
  obtain ⟨nm, l, cs⟩ := t
  cases parts with
  | nil => exact absurd rfl h
  | cons p rest =>
    cases rest <;> exact setChild_ne_nil cs p _

theorem Addable_fresh (nm : String) (parts : List String) (h : parts ≠ []) :
    Addable (.mk nm none []) parts := by
  cases parts with
  | nil => exact absurd rfl h
  | cons p rest =>
    cases rest with
    | nil => simp [Addable, getChild, TNode.children]
    | cons q r2 => simp [Addable, getChild, TNode.children]

/-- Inserting an addable path adds exactly its line count to the
aggregate. -/
theorem internalSum_add : ∀ (parts : List String) (t : TNode) (loc : Nat),
    parts ≠ [] → (t.children = [] → t.loc = none) → Addable t parts →
    internalSum (add_to_tree t parts loc) = internalSum t + loc := by
  intro parts
  induction parts with
  | nil => intro t loc h; exact absurd rfl h
  | cons p rest ih =>
    intro t loc _ hleaf hadd
    obtain ⟨nm, l, cs⟩ := t
    cases rest with
    | nil =>
      have hnone : getChild cs p = none := hadd
      rw [show add_to_tree (.mk nm l cs) [p] loc
            = .mk nm l (setChild cs p (.mk p (some loc) [])) from rfl]
      rw [setChild_of_getChild_none cs p _ hnone]
      cases cs with
      | nil =>
        have hl : l = none := hleaf rfl
        subst hl
        simp [internalSum, internalSumL]
      | cons c cs2 =>
        rw [show internalSum (.mk nm l ((c :: cs2) ++ [(p, .mk p (some loc) [])]))
              = internalSumL ((c :: cs2) ++ [(p, .mk p (some loc) [])]) from rfl]
        rw [internalSumL_append]
        simp [internalSum, internalSumL]
    | cons q rest2 =>
      rw [show add_to_tree (.mk nm l cs) (p :: q :: rest2) loc
            = .mk nm l (setChild cs p
                (add_to_tree ((getChild cs p).getD (.mk p none [])) (q :: rest2) loc))
            from rfl]
      simp only [Addable, TNode.children] at hadd
      cases hg : getChild cs p with
      | none =>
        simp only [Option.getD_none]
        have hinner : internalSum (add_to_tree (.mk p none []) (q :: rest2) loc)
            = internalSum (.mk p none []) + loc :=
          ih (.mk p none []) loc (by simp) (by intro; rfl)
            (Addable_fresh p (q :: rest2) (by simp))
        rw [setChild_of_getChild_none cs p _ hg]
        cases cs with
        | nil =>
          have hl : l = none := hleaf rfl
          subst hl
          simpa [internalSum, internalSumL] using hinner
        | cons c cs2 =>
          rw [show internalSum (.mk nm l ((c :: cs2) ++ [(p, add_to_tree (.mk p none []) (q :: rest2) loc)]))
                = internalSumL ((c :: cs2) ++ [(p, add_to_tree (.mk p none []) (q :: rest2) loc)]) from rfl]
          rw [internalSumL_append]
          simp only [internalSumL, internalSum, Option.getD_none] at hinner ⊢
          omega
      | some c =>
        rw [hg] at hadd
        obtain ⟨hcleaf, hcadd⟩ := hadd
        simp only [Option.getD_some]
        have hinner : internalSum (add_to_tree c (q :: rest2) loc) = internalSum c + loc :=
          ih c loc (by simp) hcleaf hcadd
        have hcs : cs ≠ [] := by
          intro he
          subst he
          simp [getChild] at hg
        have hsum := internalSumL_setChild_found cs p (add_to_tree c (q :: rest2) loc) c hg
        have h1 : internalSum (.mk nm l (setChild cs p (add_to_tree c (q :: rest2) loc)))
            = internalSumL (setChild cs p (add_to_tree c (q :: rest2) loc)) := by
          cases hsc : setChild cs p (add_to_tree c (q :: rest2) loc) with
          | nil => exact absurd hsc (setChild_ne_nil cs p _)
          | cons x xs => rw [internalSum]
        have h2 : internalSum (.mk nm l cs) = internalSumL cs := by
          cases cs with
          | nil => exact absurd rfl hcs
          | cons x xs => rw [internalSum]
        rw [h1, h2]
        omega

/-- Adding a path that is prefix-incompatible with `qs` preserves the
addability of `qs`. -/
theorem Addable_preserved : ∀ (qs ps : List String) (t : TNode) (loc : Nat),
    pathsCompat ps qs = true → Addable t qs → Addable (add_to_tree t ps loc) qs := by
  intro qs
  induction qs with
  | nil =>
    intro ps t loc hc hadd
    exact absurd hadd (by simp [Addable])
  | cons a qtail ih =>
    intro ps t loc hc hadd
    obtain ⟨nm, l, cs⟩ := t
    cases ps with
    | nil => exact hadd
    | cons g ptail =>
      by_cases hga : g = a
      · subst hga
        cases ptail with
        | nil =>
          exfalso
          simp [pathsCompat, leadsPath] at hc
        | cons p2 prest =>
          cases qtail with
          | nil =>
            exfalso
            simp [pathsCompat, leadsPath] at hc
          | cons b qrest =>
            have hc2 : pathsCompat (p2 :: prest) (b :: qrest) = true := by
              simp only [pathsCompat, leadsPath, Bool.and_eq_true, Bool.not_eq_true',
                decide_eq_true_eq] at hc ⊢
              simpa using hc
            rw [show add_to_tree (.mk nm l cs) (g :: p2 :: prest) loc
                  = .mk nm l (setChild cs g
                      (add_to_tree ((getChild cs g).getD (.mk g none [])) (p2 :: prest) loc))
                  from rfl]
            simp only [Addable, TNode.children]
            rw [getChild_setChild_same]
            refine ⟨fun hch => absurd hch (add_to_tree_children_ne_nil _ _ _ (by simp)), ?_⟩
            cases hg : getChild cs g with
            | none =>
              simp only [Option.getD_none]
              exact ih (p2 :: prest) (.mk g none []) loc hc2
                (Addable_fresh g (b :: qrest) (by simp))
            | some c =>
              simp only [Option.getD_some]
              simp only [Addable, TNode.children] at hadd
              rw [hg] at hadd
              exact ih (p2 :: prest) c loc hc2 hadd.2
      · have hne : ∀ X, getChild (setChild cs g X) a = getChild cs a :=
          fun X => getChild_setChild_ne cs g a X hga
        cases ptail with
        | nil =>
          rw [show add_to_tree (.mk nm l cs) [g] loc
                = .mk nm l (setChild cs g (.mk g (some loc) [])) from rfl]
          cases qtail with
          | nil =>
            show getChild (setChild cs g _) a = none
            rw [hne]
            exact hadd
          | cons b qrest =>
            simp only [Addable, TNode.children] at hadd ⊢
            rw [hne]
            exact hadd
        | cons p2 prest =>
          rw [show add_to_tree (.mk nm l cs) (g :: p2 :: prest) loc
                = .mk nm l (setChild cs g
                    (add_to_tree ((getChild cs g).getD (.mk g none [])) (p2 :: prest) loc))
                from rfl]
          cases qtail with
          | nil =>
            show getChild (setChild cs g _) a = none
            rw [hne]
            exact hadd
          | cons b qrest =>
            simp only [Addable, TNode.children] at hadd ⊢
            rw [hne]
            exact hadd

/-- The tree-building step of the scan loop. -/
def treeStep (t : TNode) (r : List String × Nat) : TNode :=
  add_to_tree t r.1 r.2

theorem Addable_foldl (rs : List (List String × Nat)) (t : TNode) (qs : List String)
    (hq : Addable t qs) (hcs : ∀ r ∈ rs, pathsCompat r.1 qs = true) :
    Addable (rs.foldl treeStep t) qs := by
  induction rs generalizing t with
  | nil => exact hq
  | cons r rest ih =>
    rw [List.foldl_cons]
    exact ih (treeStep t r)
      (Addable_preserved qs r.1 t r.2 (hcs r (by simp)) hq)
      (fun r2 h2 => hcs r2 (List.mem_cons_of_mem r h2))

theorem foldl_treeStep_loc (rs : List (List String × Nat)) (t : TNode) :
    (rs.foldl treeStep t).loc = t.loc := by
  induction rs generalizing t with
  | nil => rfl
  | cons r rest ih => rw [List.foldl_cons, ih, treeStep, add_to_tree_loc]

/-- Building a tree from pairwise prefix-incompatible paths accumulates
exactly the sum of the inserted line counts. -/
theorem internalSum_build (rs : List (List String × Nat))
    (h1 : ∀ r ∈ rs, r.1 ≠ [])
    (h2 : List.Pairwise (fun a b => pathsCompat a.1 b.1 = true) rs) :
    internalSum (rs.foldl treeStep rootNode) = (rs.map Prod.snd).sum := by
  induction rs using List.reverseRecOn with
  | nil => rfl
  | append_singleton rs r ih =>
    rw [List.foldl_append, List.foldl_cons, List.foldl_nil]
    rw [List.pairwise_append] at h2
    have hadd : Addable (rs.foldl treeStep rootNode) r.1 := by
      refine Addable_foldl rs rootNode r.1 (Addable_fresh "root" r.1 (h1 r (by simp))) ?_
      intro r2 hmem
      exact h2.2.2 r2 hmem r (by simp)
    have hleaf : (rs.foldl treeStep rootNode).children = []
        → (rs.foldl treeStep rootNode).loc = none := by
      intro
      rw [foldl_treeStep_loc]
      rfl
    rw [show treeStep (rs.foldl treeStep rootNode) r
          = add_to_tree (rs.foldl treeStep rootNode) r.1 r.2 from rfl]
    rw [internalSum_add r.1 _ r.2 (h1 r (by simp)) hleaf hadd]
    rw [ih (fun r2 hm => h1 r2 (by simp [hm])) h2.1]
    simp

/-! ## Pass-one lemmas -/

theorem processEntry_dir (st : P1State) (e : ZipEntry) (h : e.isDir = true) :
    processEntry st e = .ok st := by
  simp [processEntry, h]

theorem processEntry_over (st : P1State) (e : ZipEntry) (hd : e.isDir = false)
    (h : MAX_FILES < st.filesScanned + 1) :
    processEntry st e
      = .error ("Repository exceeds " ++ toString MAX_FILES ++ " files limit") := by
  simp [processEntry, hd, h]

theorem processEntry_textual (st : P1State) (e : ZipEntry) (hd : e.isDir = false)
    (h : ¬ MAX_FILES < st.filesScanned + 1)
    (ht : looks_textual (relOf e) (e.content.take 4096) = true) :
    processEntry st e = .ok ⟨st.filesScanned + 1,
      st.totalLoc + count_loc_from_bytes e.content,
      add_to_tree st.tree (splitOnSlash (relOf e)) (count_loc_from_bytes e.content),
      addToSet st.allFiles (relOf e),
      if (JS_TS_EXTS.contains (extLower (relOf e)) || PY_EXTS.contains (extLower (relOf e)))
          && e.content.length ≤ 2000000
      then insertFB st.fileBytes (relOf e) e.content else st.fileBytes⟩ := by
  simp only [processEntry, hd, Bool.false_eq_true, if_false, h, ht, if_true]

theorem processEntry_binary (st : P1State) (e : ZipEntry) (hd : e.isDir = false)
    (h : ¬ MAX_FILES < st.filesScanned + 1)
    (ht : looks_textual (relOf e) (e.content.take 4096) = false) :
    processEntry st e = .ok ⟨st.filesScanned + 1, st.totalLoc, st.tree,
      addToSet st.allFiles (relOf e), st.fileBytes⟩ := by
  simp only [processEntry, hd, Bool.false_eq_true, if_false, h, ht, if_true]

/-- Pass one, on success, builds the tree by folding the textual records,
adds their line counts to `total_loc`, and counts every non-directory
entry. -/
theorem pass1_ok_spec : ∀ (es : List ZipEntry) (st st2 : P1State),
    pass1 st es = .ok st2 →
    st2.tree = (textRecs es).foldl treeStep st.tree ∧
    st2.totalLoc = st.totalLoc + ((textRecs es).map Prod.snd).sum ∧
    st2.filesScanned = st.filesScanned + nonDirCount es := by
  intro es
  induction es with
  | nil =>
    intro st st2 h
    simp only [pass1] at h
    cases h
    simp [textRecs, nonDirCount]
  | cons e rest ih =>
    intro st st2 h
    rw [pass1] at h
    cases hp : processEntry st e with
    | error m => rw [hp] at h; cases h
    | ok st1 =>
      rw [hp] at h
      obtain ⟨h1, h2, h3⟩ := ih st1 st2 h
      by_cases hd : e.isDir
      · rw [processEntry_dir st e hd] at hp
        cases hp
        refine ⟨?_, ?_, ?_⟩ <;>
          simp [textRecs, entryRec, hd, nonDirCount, h1, h2, h3, List.filter_cons]
      · have hd2 : e.isDir = false := by simpa using hd
        by_cases hlim : MAX_FILES < st.filesScanned + 1
        · rw [processEntry_over st e hd2 hlim] at hp
          cases hp
        · cases ht : looks_textual (relOf e) (e.content.take 4096) with
          | true =>
            rw [processEntry_textual st e hd2 hlim ht] at hp
            cases hp
            have hrec : entryRec e = some (splitOnSlash (relOf e), count_loc_from_bytes e.content) := by
              simp [entryRec, hd2, ht]
            refine ⟨?_, ?_, ?_⟩
            · rw [h1]
              simp [textRecs, hrec, treeStep]
            · rw [h2]
              simp [textRecs, hrec]
              omega
            · rw [h3]
              simp [nonDirCount, hd2, List.filter_cons]
              omega
          | false =>
            rw [processEntry_binary st e hd2 hlim ht] at hp
            cases hp
            have hrec : entryRec e = none := by
              simp [entryRec, hd2, ht]
            refine ⟨?_, ?_, ?_⟩
            · rw [h1]
              simp [textRecs, hrec]
            · rw [h2]
              simp [textRecs, hrec]
            · rw [h3]
              simp [nonDirCount, hd2, List.filter_cons]
              omega

/-- Pass one fails (with the files-limit message) whenever the
non-directory entry count pushes the counter past `MAX_FILES`. -/
theorem pass1_error_of_count : ∀ (es : List ZipEntry) (st : P1State),
    st.filesScanned ≤ MAX_FILES →
    MAX_FILES < st.filesScanned + nonDirCount es →
    pass1 st es = .error ("Repository exceeds " ++ toString MAX_FILES ++ " files limit") := by
  intro es
  induction es with
  | nil =>
    intro st hst h
    simp [nonDirCount] at h
    exact absurd h (by omega)
  | cons e rest ih =>
    intro st hst h
    rw [pass1]
    by_cases hd : e.isDir
    · rw [processEntry_dir st e hd]
      refine ih st hst ?_
      simp [nonDirCount, List.filter_cons, hd] at h ⊢
      omega
    · have hd2 : e.isDir = false := by simpa using hd
      have hcount : nonDirCount (e :: rest) = nonDirCount rest + 1 := by
        simp [nonDirCount, List.filter_cons, hd2]
      by_cases hlim : MAX_FILES < st.filesScanned + 1
      · rw [processEntry_over st e hd2 hlim]
      · cases ht : looks_textual (relOf e) (e.content.take 4096) with
        | true =>
          rw [processEntry_textual st e hd2 hlim ht]
          refine ih _ (by simpa using hlim) ?_
          simp only [hcount] at h
          show MAX_FILES < st.filesScanned + 1 + nonDirCount rest
          omega
        | false =>
          rw [processEntry_binary st e hd2 hlim ht]
          refine ih _ (by simpa using hlim) ?_
          simp only [hcount] at h
          show MAX_FILES < st.filesScanned + 1 + nonDirCount rest
          omega

theorem addToSet_mem_self (l : List String) (x : String) : x ∈ addToSet l x := by
  by_cases h : x ∈ l <;> simp [addToSet, h]

theorem addToSet_mem_mono (l : List String) (x y : String) (h : y ∈ l) : y ∈ addToSet l x := by
  by_cases hc : x ∈ l <;> simp [addToSet, hc, h]

theorem insertFB_mem : ∀ (fb : List (String × List Nat)) (k : String) (v : List Nat)
    (p : String × List Nat), p ∈ insertFB fb k v → p.1 = k ∨ p ∈ fb := by
  intro fb
  induction fb with
  | nil =>
    intro k v p hp
    simp only [insertFB, List.mem_singleton] at hp
    left
    rw [hp]
  | cons q rest ih =>
    intro k v p hp
    obtain ⟨k1, v1⟩ := q
    by_cases h1 : k1 = k
    · subst h1
      simp only [insertFB, if_pos rfl] at hp
      rcases List.mem_cons.mp hp with h | h
      · left; rw [h]
      · right; exact List.mem_cons_of_mem _ h
    · simp only [insertFB, if_neg h1] at hp
      rcases List.mem_cons.mp hp with h | h
      · right; rw [h]; exact List.mem_cons_self _ _
      · rcases ih k v p h with h2 | h2
        · left; exact h2
        · right; exact List.mem_cons_of_mem _ h2

/-- Pass one, on success: the file set grows monotonically, collects the
relative path of every non-directory entry, and keeps every retained
source's key inside it. -/
theorem pass1_files_spec : ∀ (es : List ZipEntry) (st st2 : P1State),
    pass1 st es = .ok st2 →
    (∀ x, x ∈ st.allFiles → x ∈ st2.allFiles) ∧
    (∀ e ∈ es, e.isDir = false → relOf e ∈ st2.allFiles) ∧
    ((∀ p ∈ st.fileBytes, p.1 ∈ st.allFiles) → ∀ p ∈ st2.fileBytes, p.1 ∈ st2.allFiles) := by
  intro es
  induction es with
  | nil =>
    intro st st2 h
    simp only [pass1] at h
    cases h
    exact ⟨fun x hx => hx, by simp, fun h p hp => h p hp⟩
  | cons e rest ih =>
    intro st st2 h
    rw [pass1] at h
    cases hp : processEntry st e with
    | error m => rw [hp] at h; cases h
    | ok st1 =>
      rw [hp] at h
      obtain ⟨m1, m2, m3⟩ := ih st1 st2 h
      by_cases hd : e.isDir
      · rw [processEntry_dir st e hd] at hp
        cases hp
        refine ⟨m1, ?_, m3⟩
        intro e2 he2 hnd
        rcases List.mem_cons.mp he2 with h2 | h2
        · subst h2
          rw [hd] at hnd
          cases hnd
        · exact m2 e2 h2 hnd
      · have hd2 : e.isDir = false := by simpa using hd
        by_cases hlim : MAX_FILES < st.filesScanned + 1
        · rw [processEntry_over st e hd2 hlim] at hp
          cases hp
        · cases ht : looks_textual (relOf e) (e.content.take 4096) with
          | true =>
            rw [processEntry_textual st e hd2 hlim ht] at hp
            cases hp
            refine ⟨?_, ?_, ?_⟩
            · intro x hx
              exact m1 x (addToSet_mem_mono _ _ _ hx)
            · intro e2 he2 hnd
              rcases List.mem_cons.mp he2 with h2 | h2
              · subst h2
                exact m1 _ (addToSet_mem_self _ _)
              · exact m2 e2 h2 hnd
            · intro hinv
              refine m3 ?_
              intro p hp2
              simp only at hp2
              split at hp2
              · rcases insertFB_mem _ _ _ p hp2 with h2 | h2
                · rw [h2]
                  exact addToSet_mem_self _ _
                · exact addToSet_mem_mono _ _ _ (hinv p h2)
              · exact addToSet_mem_mono _ _ _ (hinv p hp2)
          | false =>
            rw [processEntry_binary st e hd2 hlim ht] at hp
            cases hp
            refine ⟨?_, ?_, ?_⟩
            · intro x hx
              exact m1 x (addToSet_mem_mono _ _ _ hx)
            · intro e2 he2 hnd
              rcases List.mem_cons.mp he2 with h2 | h2
              · subst h2
                exact m1 _ (addToSet_mem_self _ _)
              · exact m2 e2 h2 hnd
            · intro hinv
              refine m3 ?_
              intro p hp2
              exact addToSet_mem_mono _ _ _ (hinv p hp2)

/-! ## Pass-two and resolver lemmas -/

theorem mem_of_contains {l : List String} {x : String} (h : l.contains x = true) : x ∈ l := by
  simpa using h

theorem jsInner_mem (p : String) (files : List String) (t : String)
    (h : jsInner p files = some t) : t ∈ files := by
  unfold jsInner at h
  cases h1 : [".ts", ".tsx", ".js", ".jsx", ".json"].find? (fun e => files.contains (p ++ e)) with
  | some e =>
    rw [h1] at h
    cases h
    exact mem_of_contains (by simpa using List.find?_some h1)
  | none =>
    rw [h1] at h
    cases h2 : ["/index.ts", "/index.tsx", "/index.js", "/index.jsx"].find?
        (fun i => files.contains (p ++ i)) with
    | some i =>
      rw [h2] at h
      cases h
      exact mem_of_contains (by simpa using List.find?_some h2)
    | none =>
      rw [h2] at h
      cases h

theorem jsLoop_mem (files : List String) (t : String) :
    ∀ cands, jsLoop files cands = some t → t ∈ files := by
  intro cands
  induction cands with
  | nil => intro h; cases h
  | cons c cs ih =>
    intro h
    rw [jsLoop] at h
    split at h
    · cases h
      exact mem_of_contains (by assumption)
    · split at h
      · cases h2 : jsInner (normPosix (resubStr (normPosix c))) files with
        | some u =>
          rw [h2] at h
          cases h
          exact jsInner_mem _ _ _ h2
        | none =>
          rw [h2] at h
          exact ih h
      · exact ih h

/-- Any JS/TS resolution result is a member of the known-path set. -/
theorem resolve_js_mem (cur spec : String) (files : List String) (t : String)
    (h : _resolve_js_ts cur spec files = some t) : t ∈ files := by
  unfold _resolve_js_ts at h
  split at h
  · exact jsLoop_mem files t _ h
  · cases h

/-- Any Python resolution result is a member of the known-path set. -/
theorem resolve_py_mem (cur mod : String) (files : List String) (t : String)
    (h : _resolve_py cur mod files = some t) : t ∈ files := by
  unfold _resolve_py at h
  split at h
  · exact mem_of_contains (by simpa using List.find?_some h)
  · exact mem_of_contains (by simpa using List.find?_some h)

theorem foldl_append_mem {α β : Type} (f : β → List α) :
    ∀ (l : List β) (acc : List α) (a : α),
      (a ∈ l.foldl (fun acc b => acc ++ f b) acc ↔ a ∈ acc ∨ ∃ b ∈ l, a ∈ f b) := by
  intro l
  induction l with
  | nil => intro acc a; simp
  | cons b rest ih =>
    intro acc a
    rw [List.foldl_cons, ih]
    simp only [List.mem_append, List.mem_cons]
    constructor
    · rintro (⟨h | h⟩ | ⟨b2, hb2, h⟩)
      · exact Or.inl h
      · exact Or.inr ⟨b, Or.inl rfl, h⟩
      · exact Or.inr ⟨b2, Or.inr hb2, h⟩
    · rintro (h | ⟨b2, (hb2 | hb2), h⟩)
      · exact Or.inl (Or.inl h)
      · subst hb2; exact Or.inl (Or.inr h)
      · exact Or.inr ⟨b2, hb2, h⟩

theorem pass2_mem (files : List String) (fb : List (String × List Nat))
    (a : String × String) :
    a ∈ pass2 files fb ↔ ∃ p ∈ fb, a ∈ fileEdges files p.1 p.2 := by
  unfold pass2
  rw [foldl_append_mem (fun p => fileEdges files p.1 p.2) fb [] a]
  simp

/-- Every edge a retained file contributes starts at that file and points
into the known-path set. -/
theorem fileEdges_mem (files : List String) (path : String) (content : List Nat)
    (a : String × String) (h : a ∈ fileEdges files path content) :
    a.1 = path ∧ a.2 ∈ files := by
  simp only [fileEdges] at h
  split at h
  · obtain ⟨spec, _, h2⟩ := List.mem_filterMap.mp h
    split at h2
    · cases h2
      refine ⟨rfl, ?_⟩
      rename_i tgt heq
      split at heq
      · exact resolve_js_mem _ _ _ _ heq
      · cases heq
    · cases h2
  · split at h
    · obtain ⟨mod, _, h2⟩ := List.mem_filterMap.mp h
      split at h2
      · cases h2
        refine ⟨rfl, ?_⟩
        rename_i tgt heq
        exact resolve_py_mem _ _ _ _ heq
      · cases h2
    · cases h

/-- Unpacking a successful scan into its pass-one state. -/
theorem scan_repo_ok_elim (owner repo : String) (z : Zipball) (scanId : String)
    (createdAt : Nat) (r : ScanResult)
    (h : scan_repo owner repo z scanId createdAt = .ok r) :
    ∃ st, pass1 initState z.entries = .ok st ∧
      r.tree = tree_to_list st.tree ∧
      r.graph.nodes = sortByB strLE st.allFiles ∧
      r.graph.edges = pass2 st.allFiles st.fileBytes ∧
      r.summary.files_scanned = st.filesScanned ∧
      r.summary.total_loc = st.totalLoc ∧
      z.size ≤ MAX_BYTES := by
  unfold scan_repo at h
  cases hc : scanCore z with
  | error m =>
    rw [hc] at h
    cases h
  | ok c =>
    rw [hc] at h
    cases h
    unfold scanCore at hc
    split at hc
    · cases hc
    · rename_i hsize
      cases hp : pass1 initState z.entries with
      | error m =>
        rw [hp] at hc
        cases hc
      | ok st =>
        rw [hp] at hc
        cases hc
        exact ⟨st, rfl, rfl, rfl, rfl, rfl, rfl, by omega⟩

/-! ## Result projections and concrete archives used by the claims -/

/-- Edge list of a scan outcome (empty on failure). -/
def edgesOf (x : Except String ScanResult) : List (String × String) :=
  match x with
  | .ok r => r.graph.edges
  | .error _ => []

/-- Node list of a scan outcome (empty on failure). -/
def nodesOf (x : Except String ScanResult) : List String :=
  match x with
  | .ok r => r.graph.nodes
  | .error _ => []

/-- Finalized tree of a scan outcome (bare root on failure). -/
def treeOf (x : Except String ScanResult) : OutNode :=
  match x with
  | .ok r => r.tree
  | .error _ => .mk "root" none []

/-- `total_loc` of a scan outcome (0 on failure). -/
def totalLocOf (x : Except String ScanResult) : Nat :=
  match x with
  | .ok r => r.summary.total_loc
  | .error _ => 0

/-- Retained-sources map of a pass-one outcome (empty on failure). -/
def fbOf (x : Except String P1State) : List (String × List Nat) :=
  match x with
  | .ok st => st.fileBytes
  | .error _ => []

/-- File set of a pass-one outcome (empty on failure). -/
def afOf (x : Except String P1State) : List String :=
  match x with
  | .ok st => st.allFiles
  | .error _ => []

/-- ASCII text as bytes (all the concrete archives below are ASCII). -/
def asciiBytes (s : String) : List Nat := s.data.map Char.toNat

/-! ## Claims -/

/-- C7: the classifier returns textual for allowlisted extensions
regardless of content; otherwise a NUL byte in the header means binary;
otherwise the verdict is exactly UTF-8 validity of the header. -/
theorem C7_classifier_decision_order (path : String) (head : List Nat) :
    (TEXT_EXTS.contains (extLower path) = true → looks_textual path head = true) ∧
    (TEXT_EXTS.contains (extLower path) = false → head.contains 0 = true →
      looks_textual path head = false) ∧
    (TEXT_EXTS.contains (extLower path) = false → head.contains 0 = false →
      looks_textual path head = utf8Valid head) := by
  unfold looks_textual
  refine ⟨fun h1 => ?_, fun h1 h2 => ?_, fun h1 h2 => ?_⟩
  · have h1m : extLower path ∈ TEXT_EXTS := by simpa using h1
    simp [h1m]
  · have h1m : extLower path ∉ TEXT_EXTS := by simpa using h1
    have h2m : 0 ∈ head := by simpa using h2
    simp [h1m, h2m]
  · have h1m : extLower path ∉ TEXT_EXTS := by simpa using h1
    have h2m : 0 ∉ head := by simpa using h2
    simp [h1m, h2m]

theorem C7_classifier_decision_order_witness :
    looks_textual "x.py" [0] = true ∧
    looks_textual "blob.bin" [0, 65] = false ∧
    looks_textual "blob.bin" [0xC2] = utf8Valid [0xC2] :=
  ⟨(C7_classifier_decision_order "x.py" [0]).1 (by decide),
   (C7_classifier_decision_order "blob.bin" [0, 65]).2.1 (by decide) (by decide),
   (C7_classifier_decision_order "blob.bin" [0xC2]).2.2 (by decide) (by decide)⟩

/-- C8: the scan is a function of the archive bytes alone — two scans of
the same archive agree on success, tree, graph, and counts, whatever
identifier and timestamp are generated. -/
theorem C8_deterministic (owner repo : String) (z : Zipball)
    (id1 : String) (t1 : Nat) (id2 : String) (t2 : Nat) :
    (scan_repo owner repo z id1 t1).isOk = (scan_repo owner repo z id2 t2).isOk ∧
    (scan_repo owner repo z id1 t1).toOption.map
        (fun r => (r.tree, r.graph, r.summary.files_scanned, r.summary.total_loc))
      = (scan_repo owner repo z id2 t2).toOption.map
        (fun r => (r.tree, r.graph, r.summary.files_scanned, r.summary.total_loc)) := by
  unfold scan_repo
  cases scanCore z <;> simp [Except.isOk, Except.toBool, Except.toOption]

/-- C9: both endpoints of every edge are graph nodes — the source is a
retained file's path (put into the file set during pass one) and the
target is returned by a resolver only when it is in that same set. -/
theorem C9_edge_endpoints_are_nodes (owner repo : String) (z : Zipball) (scanId : String)
    (createdAt : Nat) (r : ScanResult)
    (h : scan_repo owner repo z scanId createdAt = .ok r) :
    ∀ e ∈ r.graph.edges, e.1 ∈ r.graph.nodes ∧ e.2 ∈ r.graph.nodes := by
  obtain ⟨st, hp, _, hnodes, hedges, _, _, _⟩ :=
    scan_repo_ok_elim owner repo z scanId createdAt r h
  intro e he
  rw [hedges] at he
  obtain ⟨p, hpfb, hef⟩ := (pass2_mem _ _ _).mp he
  obtain ⟨h1, h2⟩ := fileEdges_mem _ _ _ _ hef
  have hfb := (pass1_files_spec z.entries initState st hp).2.2
    (fun q hq => by simp [initState] at hq) p hpfb
  rw [hnodes]
  have hperm := sortByB_perm strLE st.allFiles
  exact ⟨hperm.mem_iff.mpr (h1 ▸ hfb), hperm.mem_iff.mpr h2⟩

def zc9 : Zipball :=
  ⟨1000,
   [⟨"repo-main/src/app.ts", asciiBytes "import u from \"./util\";\n"⟩,
    ⟨"repo-main/src/util.ts", asciiBytes "export const u = 1;\n"⟩]⟩

theorem C9_edge_endpoints_are_nodes_witness :
    ("src/app.ts", "src/util.ts") ∈ edgesOf (scan_repo "o" "r" zc9 "w" 0) ∧
    "src/app.ts" ∈ nodesOf (scan_repo "o" "r" zc9 "w" 0) ∧
    "src/util.ts" ∈ nodesOf (scan_repo "o" "r" zc9 "w" 0) := by
  have hok : (scan_repo "o" "r" zc9 "w" 0).isOk = true := by decide
  have hmem0 : ("src/app.ts", "src/util.ts") ∈ edgesOf (scan_repo "o" "r" zc9 "w" 0) := by decide
  cases h : scan_repo "o" "r" zc9 "w" 0 with
  | error m =>
    rw [h] at hok
    simp [Except.isOk, Except.toBool] at hok
  | ok r =>
    rw [h] at hmem0
    simp only [edgesOf] at hmem0
    have h9 := C9_edge_endpoints_are_nodes "o" "r" zc9 "w" 0 r h
      ("src/app.ts", "src/util.ts") hmem0
    simp only [edgesOf, nodesOf]
    exact ⟨hmem0, h9.1, h9.2⟩

/-- C6: an archive with more than `MAX_FILES` non-directory entries fails
the scan, and any failed scan persists nothing (the write only happens
after both passes). -/
theorem C6_file_limit_nothing_persisted (owner repo : String) (z : Zipball)
    (scanId : String) (createdAt : Nat) :
    (MAX_FILES < nonDirCount z.entries →
      ∃ msg, scan_repo owner repo z scanId createdAt = .error msg) ∧
    (∀ msg, scan_repo owner repo z scanId createdAt = .error msg →
      persistedRecord (scan_repo owner repo z scanId createdAt) = none) := by
  constructor
  · intro h
    unfold scan_repo scanCore
    by_cases hs : MAX_BYTES < z.size
    · exact ⟨_, by rw [if_pos hs]⟩
    · have hp := pass1_error_of_count z.entries initState (by simp [initState, MAX_FILES])
        (by simpa [initState] using h)
      exact ⟨_, by rw [if_neg hs, hp]⟩
  · intro msg hmsg
    rw [persistedRecord, hmsg]
    rfl

def zBig : Zipball := ⟨0, List.replicate 5001 ⟨"a", []⟩⟩

theorem nonDirCount_replicate (n : Nat) (e : ZipEntry) (h : e.isDir = false) :
    nonDirCount (List.replicate n e) = n := by
  induction n with
  | zero => simp [nonDirCount]
  | succ n ih =>
    rw [List.replicate_succ]
    simp only [nonDirCount, List.filter_cons, h] at ih ⊢
    simp only [Bool.not_false, if_pos, List.length_cons]
    omega

theorem C6_file_limit_nothing_persisted_witness :
    ∃ msg, scan_repo "o" "r" zBig "w" 0 = .error msg := by
  refine (C6_file_limit_nothing_persisted "o" "r" zBig "w" 0).1 ?_
  have hcount : nonDirCount zBig.entries = 5001 :=
    nonDirCount_replicate 5001 ⟨"a", []⟩ (by decide)
  rw [hcount]
  decide

/-- C5 (amended): the byte ceiling is enforced on the downloaded zipball
stream, before traversal — a download larger than `MAX_BYTES` fails the
scan with the size error and nothing is returned. -/
theorem C5_download_byte_limit (owner repo : String) (z : Zipball)
    (scanId : String) (createdAt : Nat) (h : MAX_BYTES < z.size) :
    scan_repo owner repo z scanId createdAt
      = .error ("Repository exceeds " ++ toString (MAX_BYTES / (1024 * 1024)) ++ " MB limit") := by
  unfold scan_repo scanCore
  rw [if_pos h]

theorem C5_download_byte_limit_witness :
    scan_repo "o" "r" ⟨MAX_BYTES + 1, []⟩ "w" 0
      = .error ("Repository exceeds " ++ toString (MAX_BYTES / (1024 * 1024)) ++ " MB limit") :=
  C5_download_byte_limit "o" "r" ⟨MAX_BYTES + 1, []⟩ "w" 0 (Nat.lt_succ_self MAX_BYTES)

/-- A highly compressible archive: one 100 MiB + 1 byte all-zero entry.
Deflate stores such content at roughly a 1000:1 ratio, hence the
110 000-byte zipball. -/
def zBomb : Zipball := ⟨110000, [⟨"repo-main/blob.bin", List.replicate (MAX_BYTES + 1) 0⟩]⟩

def zBombEntry : ZipEntry := ⟨"repo-main/blob.bin", List.replicate (MAX_BYTES + 1) 0⟩

/-- C5 counterexample: the traversal reads over `MAX_BYTES` decompressed
bytes, yet the scan succeeds — the ceiling is checked against the
downloaded stream only.  (The content stays abstract in the helper steps
so that no proof step evaluates the 100 MiB list.) -/
theorem C5_counterexample :
    MAX_BYTES < totalDecompressedBytes zBomb.entries ∧
    (scan_repo "o" "r" zBomb "w" 0).isOk = true := by
  have hdir : zBombEntry.isDir = false := by
    show strEnds "repo-main/blob.bin" "/" = false
    decide
  have hbytes : ∀ content : List Nat,
      totalDecompressedBytes [⟨"repo-main/blob.bin", content⟩] = content.length := by
    intro content
    have hd : (⟨"repo-main/blob.bin", content⟩ : ZipEntry).isDir = false := by
      show strEnds "repo-main/blob.bin" "/" = false
      decide
    simp [totalDecompressedBytes, List.filter_cons, hd]
  constructor
  · show MAX_BYTES < totalDecompressedBytes [zBombEntry]
    rw [show zBombEntry = ⟨"repo-main/blob.bin", List.replicate (MAX_BYTES + 1) 0⟩ from rfl]
    rw [hbytes (List.replicate (MAX_BYTES + 1) 0)]
    rw [List.length_replicate]
    omega
  · have hlim : ¬ MAX_FILES < initState.filesScanned + 1 := by decide
    have ht : looks_textual (relOf zBombEntry) (zBombEntry.content.take 4096) = false := by
      rw [show relOf zBombEntry = "blob.bin" from rfl]
      rw [show zBombEntry.content = List.replicate (MAX_BYTES + 1) 0 from rfl]
      rw [List.take_replicate]
      rw [show min 4096 (MAX_BYTES + 1) = 4096 from by norm_num [MAX_BYTES]]
      have h1 : TEXT_EXTS.contains (extLower "blob.bin") = false := by decide
      have h2 : (List.replicate 4096 (0 : Nat)).contains 0 = true := by
        refine List.elem_eq_true_of_mem ?_
        rw [List.mem_replicate]
        exact ⟨by norm_num, rfl⟩
      simp only [looks_textual, h1, h2, Bool.false_eq_true, if_false, if_true]
    have hp1 : pass1 initState zBomb.entries
        = .ok ⟨initState.filesScanned + 1, initState.totalLoc, initState.tree,
               addToSet initState.allFiles (relOf zBombEntry), initState.fileBytes⟩ := by
      show pass1 initState [zBombEntry] = _
      rw [pass1, processEntry_binary initState zBombEntry hdir hlim ht]
      rfl
    unfold scan_repo scanCore
    rw [if_neg (by norm_num [MAX_BYTES, zBomb] : ¬ MAX_BYTES < zBomb.size), hp1]
    rfl

def zc2 : Zipball :=
  ⟨1000,
   [⟨"repo-main/pkg/mod.py", asciiBytes "from . import helpers\n"⟩,
    ⟨"repo-main/pkg/helpers.py", asciiBytes "x = 1\n"⟩]⟩

/-- C2: with `pkg/mod.py` containing `from . import helpers` and
`pkg/helpers.py` present, the code produces no edge at all: the extractor
captures only the bare dot, and the resolver ascends one level per dot
from the containing directory — one level too far for Python semantics —
and then probes `__init__.py` / `..py` at the archive root, never the
imported submodule. -/
theorem C2_relative_import_no_edge :
    pyImports ("from . import helpers\n".data) = ["."] ∧
    _resolve_py "pkg/mod.py" "." ["pkg/mod.py", "pkg/helpers.py"] = none ∧
    pyRelCands "pkg/mod.py" "." = ["__init__.py", "..py"] ∧
    (scan_repo "o" "r" zc2 "w" 0).isOk = true ∧
    edgesOf (scan_repo "o" "r" zc2 "w" 0) = [] := by
  refine ⟨by decide, by decide, by decide, by decide, by decide⟩

/-- C3 (amended): the resolver probes, in order, `target/__init__.py`
then `target.py` for relative (dot-prefixed) specifiers — so when both
exist the `__init__.py` wins — and `path.py` then `path/__init__.py` for
absolute specifiers; in both branches the first candidate present in the
known-path set is returned. -/
theorem C3_candidate_order (cur mod : String) (files : List String) :
    (strStarts mod "." = true →
      (files.contains (normPosix (strP (pyRelTarget cur mod) ++ "/__init__.py")) = true →
        _resolve_py cur mod files
          = some (normPosix (strP (pyRelTarget cur mod) ++ "/__init__.py"))) ∧
      (files.contains (normPosix (strP (pyRelTarget cur mod) ++ "/__init__.py")) = false →
       files.contains (normPosix (strP (pyRelTarget cur mod) ++ ".py")) = true →
        _resolve_py cur mod files
          = some (normPosix (strP (pyRelTarget cur mod) ++ ".py")))) ∧
    (strStarts mod "." = false →
      (files.contains (normPosix (joinDots mod ++ ".py")) = true →
        _resolve_py cur mod files = some (normPosix (joinDots mod ++ ".py"))) ∧
      (files.contains (normPosix (joinDots mod ++ ".py")) = false →
       files.contains (normPosix (joinDots mod ++ "/__init__.py")) = true →
        _resolve_py cur mod files = some (normPosix (joinDots mod ++ "/__init__.py")))) := by
  constructor
  · intro hrel
    unfold _resolve_py
    rw [if_pos hrel]
    unfold pyRelCands
    constructor
    · intro h1
      have h1m := mem_of_contains h1
      simp [List.find?, h1m]
    · intro h1 h2
      have h1m : normPosix (strP (pyRelTarget cur mod) ++ "/__init__.py") ∉ files := by
        simpa using h1
      have h2m := mem_of_contains h2
      simp [List.find?, h1m, h2m]
  · intro habs
    unfold _resolve_py
    rw [if_neg (by simp [habs])]
    unfold pyAbsCands
    constructor
    · intro h1
      have h1m := mem_of_contains h1
      simp [List.find?, h1m]
    · intro h1 h2
      have h1m : normPosix (joinDots mod ++ ".py") ∉ files := by simpa using h1
      have h2m := mem_of_contains h2
      simp [List.find?, h1m, h2m]

/-- C3 counterexample: for the relative specifier `.sub` both candidates
exist, and the code returns `sub/__init__.py`, not the `sub.py` the claim
("the `.py` suffix is tried first") demands. -/
theorem C3_counterexample :
    _resolve_py "pkg/mod.py" ".sub" ["pkg/mod.py", "sub.py", "sub/__init__.py"]
      = some "sub/__init__.py" ∧
    ("sub.py" : String) ∈ ["pkg/mod.py", "sub.py", "sub/__init__.py"] ∧
    some ("sub/__init__.py" : String) ≠ some ("sub.py" : String) := by
  refine ⟨by decide, by decide, by decide⟩

theorem C3_candidate_order_witness :
    _resolve_py "pkg/mod.py" ".sub" ["sub/__init__.py", "sub.py"] = some "sub/__init__.py" ∧
    _resolve_py "a.py" "pkg.sub" ["pkg/sub.py", "pkg/sub/__init__.py"] = some "pkg/sub.py" :=
  ⟨((C3_candidate_order "pkg/mod.py" ".sub" ["sub/__init__.py", "sub.py"]).1
      (by decide)).1 (by decide),
   ((C3_candidate_order "a.py" "pkg.sub" ["pkg/sub.py", "pkg/sub/__init__.py"]).2
      (by decide)).1 (by decide)⟩

theorem textRecs_fst_ne_nil (es : List ZipEntry) : ∀ r ∈ textRecs es, r.1 ≠ [] := by
  intro r hr
  obtain ⟨e, _, he⟩ := List.mem_filterMap.mp hr
  simp only [entryRec] at he
  split at he
  · cases he
  · split at he
    · cases he
      exact splitOnSlash_ne_nil _
    · cases he

/-- C1 (amended): every successful scan's tree satisfies the directory
invariant — each directory's `loc` is the sum of its children's —
unconditionally; and when no two textual entries map to the same
normalized path nor to a path that is a prefix of another's (no duplicate
names, no file that is also a directory), the sum of the leaf line counts
equals `total_loc`. -/
theorem C1_tree_invariant (owner repo : String) (z : Zipball) (scanId : String)
    (createdAt : Nat) (r : ScanResult)
    (h : scan_repo owner repo z scanId createdAt = .ok r) :
    dirOk r.tree = true ∧
    (List.Pairwise (fun a b => pathsCompat a.1 b.1 = true) (textRecs z.entries) →
      leafSum r.tree = r.summary.total_loc) := by
  obtain ⟨st, hp, htree, _, _, _, hloc, _⟩ :=
    scan_repo_ok_elim owner repo z scanId createdAt r h
  constructor
  · rw [htree]
    exact dirOk_tree_to_list st.tree
  · intro hcompat
    rw [htree, leafSum_tree_to_list]
    obtain ⟨h1, h2, _⟩ := pass1_ok_spec z.entries initState st hp
    rw [h1]
    rw [show (initState.tree : TNode) = rootNode from rfl]
    rw [internalSum_build (textRecs z.entries) (textRecs_fst_ne_nil z.entries) hcompat]
    rw [hloc, h2]
    simp [initState]

def zc1 : Zipball :=
  ⟨1000,
   [⟨"repo-main/a.py", asciiBytes "x = 1\n"⟩,
    ⟨"repo-main/d/b.py", asciiBytes "x = 1\ny = 2\n"⟩]⟩

theorem C1_tree_invariant_witness :
    dirOk (treeOf (scan_repo "o" "r" zc1 "w" 0)) = true ∧
    leafSum (treeOf (scan_repo "o" "r" zc1 "w" 0))
      = totalLocOf (scan_repo "o" "r" zc1 "w" 0) := by
  have hok : (scan_repo "o" "r" zc1 "w" 0).isOk = true := by decide
  cases h : scan_repo "o" "r" zc1 "w" 0 with
  | error m =>
    rw [h] at hok
    simp [Except.isOk, Except.toBool] at hok
  | ok r =>
    have h1 := C1_tree_invariant "o" "r" zc1 "w" 0 r h
    simp only [treeOf, totalLocOf]
    exact ⟨h1.1, h1.2 (by decide)⟩

/-- C1 counterexample: an archive holding the same textual path twice
scans successfully, counts both copies in `total_loc`, but keeps a single
leaf — the finalized tree's leaf total is 1 while `total_loc` is 2, so
the claim fails as stated for this archive. -/
def zDup : Zipball :=
  ⟨1000,
   [⟨"repo-main/a.py", asciiBytes "x = 1\n"⟩,
    ⟨"repo-main/a.py", asciiBytes "x = 1\n"⟩]⟩

theorem C1_counterexample :
    (scan_repo "o" "r" zDup "w" 0).isOk = true ∧
    totalLocOf (scan_repo "o" "r" zDup "w" 0) = 2 ∧
    leafSum (treeOf (scan_repo "o" "r" zDup "w" 0)) = 1 := by
  refine ⟨by decide, by decide, by decide⟩

/-! ## Leaf-path lemmas (for the placement of binary files) -/

mutual

/-- In every binding of a built tree the node's `name` equals its dict
key (`add_to_tree` creates `{"name": p}` under key `p`). -/
def nkOkL : List (String × TNode) → Prop
  | [] => True
  | (k, c) :: rest => nkOkN k c ∧ nkOkL rest

def nkOkN : String → TNode → Prop
  | k, .mk nm _ cs => nm = k ∧ nkOkL cs

end

theorem nkOkN_iff (k : String) (t : TNode) : nkOkN k t ↔ t.name = k ∧ nkOkL t.children := by
  obtain ⟨nm, l, cs⟩ := t
  rfl

theorem nkOkL_getChild : ∀ (cs : List (String × TNode)) (k : String) (c : TNode),
    nkOkL cs → getChild cs k = some c → nkOkN k c := by
  intro cs
  induction cs with
  | nil => intro k c _ h; cases h
  | cons p rest ih =>
    intro k c hnk hg
    obtain ⟨k1, v1⟩ := p
    obtain ⟨h1, h2⟩ := hnk
    by_cases he : k1 = k
    · subst he
      simp [getChild] at hg
      exact hg ▸ h1
    · simp [getChild, he] at hg
      exact ih k c h2 hg

theorem nkOkL_setChild : ∀ (cs : List (String × TNode)) (k : String) (v : TNode),
    nkOkL cs → nkOkN k v → nkOkL (setChild cs k v) := by
  intro cs
  induction cs with
  | nil => intro k v _ hv; exact ⟨hv, trivial⟩
  | cons p rest ih =>
    intro k v hnk hv
    obtain ⟨k1, v1⟩ := p
    obtain ⟨h1, h2⟩ := hnk
    by_cases he : k1 = k
    · subst he
      simp only [setChild, if_pos rfl]
      exact ⟨hv, h2⟩
    · simp only [setChild, if_neg he]
      exact ⟨h1, ih k v h2 hv⟩

theorem add_to_tree_name (t : TNode) (parts : List String) (loc : Nat) :
    (add_to_tree t parts loc).name = t.name := by
  obtain ⟨nm, l, cs⟩ := t
  cases parts with
  | nil => rfl
  | cons p rest => cases rest <;> rfl

theorem nk_add : ∀ (parts : List String) (t : TNode) (loc : Nat),
    nkOkL t.children → nkOkL (add_to_tree t parts loc).children := by
  intro parts
  induction parts with
  | nil =>
    intro t loc h
    obtain ⟨nm, l, cs⟩ := t
    exact h
  | cons p rest ih =>
    intro t loc h
    obtain ⟨nm, l, cs⟩ := t
    cases rest with
    | nil =>
      show nkOkL (setChild cs p (.mk p (some loc) []))
      exact nkOkL_setChild cs p _ h ⟨rfl, trivial⟩
    | cons q rest2 =>
      show nkOkL (setChild cs p (add_to_tree ((getChild cs p).getD (.mk p none [])) (q :: rest2) loc))
      refine nkOkL_setChild cs p _ h ?_
      rw [nkOkN_iff]
      cases hg : getChild cs p with
      | none =>
        simp only [Option.getD_none]
        refine ⟨?_, ih (.mk p none []) loc trivial⟩
        rw [add_to_tree_name]
        rfl
      | some c =>
        simp only [Option.getD_some]
        have hc := nkOkL_getChild cs p c h hg
        rw [nkOkN_iff] at hc
        exact ⟨by rw [add_to_tree_name]; exact hc.1, ih c loc hc.2⟩

theorem nk_foldl : ∀ (rs : List (List String × Nat)) (t : TNode),
    nkOkL t.children → nkOkL ((rs.foldl treeStep t)).children := by
  intro rs
  induction rs with
  | nil => intro t h; exact h
  | cons r rest ih =>
    intro t h
    rw [List.foldl_cons]
    exact ih (treeStep t r) (nk_add r.1 t r.2 h)

theorem mem_leafPathsL (q : List String) : ∀ l : List OutNode,
    (q ∈ leafPathsL l ↔ ∃ o ∈ l, q ∈ leafPathsN o) := by
  intro l
  induction l with
  | nil => simp [leafPathsL]
  | cons c rest ih =>
    show q ∈ leafPathsN c ++ leafPathsL rest ↔ _
    rw [List.mem_append, ih]
    constructor
    · rintro (h | ⟨o, ho, h⟩)
      · exact ⟨c, by simp, h⟩
      · exact ⟨o, by simp [ho], h⟩
    · rintro ⟨o, ho, h⟩
      rcases List.mem_cons.mp ho with h2 | h2
      · subst h2; exact Or.inl h
      · exact Or.inr ⟨o, h2, h⟩

theorem mem_ileafPathsL (q : List String) : ∀ cs : List (String × TNode),
    (q ∈ ileafPathsL cs ↔ ∃ p ∈ cs, q ∈ ileafPathsK p.1 p.2) := by
  intro cs
  induction cs with
  | nil => simp [ileafPathsL]
  | cons c rest ih =>
    obtain ⟨k, v⟩ := c
    show q ∈ ileafPathsK k v ++ ileafPathsL rest ↔ _
    rw [List.mem_append, ih]
    constructor
    · rintro (h | ⟨p, hp, h⟩)
      · exact ⟨(k, v), by simp, h⟩
      · exact ⟨p, by simp [hp], h⟩
    · rintro ⟨p, hp, h⟩
      rcases List.mem_cons.mp hp with h2 | h2
      · subst h2; exact Or.inl h
      · exact Or.inr ⟨p, h2, h⟩

theorem setChild_mem : ∀ (cs : List (String × TNode)) (k : String) (v : TNode)
    (p : String × TNode), p ∈ setChild cs k v → p = (k, v) ∨ p ∈ cs := by
  intro cs
  induction cs with
  | nil =>
    intro k v p hp
    simp [setChild] at hp
    exact Or.inl (by rw [hp])
  | cons c rest ih =>
    intro k v p hp
    obtain ⟨k1, v1⟩ := c
    by_cases he : k1 = k
    · subst he
      simp only [setChild, if_pos rfl] at hp
      rcases List.mem_cons.mp hp with h | h
      · exact Or.inl h
      · exact Or.inr (List.mem_cons_of_mem _ h)
    · simp only [setChild, if_neg he] at hp
      rcases List.mem_cons.mp hp with h | h
      · exact Or.inr (h ▸ List.mem_cons_self _ _)
      · rcases ih k v p h with h2 | h2
        · exact Or.inl h2
        · exact Or.inr (List.mem_cons_of_mem _ h2)

theorem getChild_mem : ∀ (cs : List (String × TNode)) (k : String) (c : TNode),
    getChild cs k = some c → (k, c) ∈ cs := by
  intro cs
  induction cs with
  | nil => intro k c h; cases h
  | cons p rest ih =>
    intro k c h
    obtain ⟨k1, v1⟩ := p
    by_cases he : k1 = k
    · subst he
      simp [getChild] at h
      exact h ▸ List.mem_cons_self _ _
    · simp [getChild, he] at h
      exact List.mem_cons_of_mem _ (ih k c h)

theorem nkOkL_mem : ∀ (cs : List (String × TNode)) (k : String) (c : TNode),
    nkOkL cs → (k, c) ∈ cs → nkOkN k c := by
  intro cs
  induction cs with
  | nil => intro k c _ h; cases h
  | cons p rest ih =>
    intro k c hnk hm
    obtain ⟨k1, v1⟩ := p
    obtain ⟨h1, h2⟩ := hnk
    rcases List.mem_cons.mp hm with h | h
    · cases h
      exact h1
    · exact ih k c h2 h

/-- Every leaf name-path of the finalized tree is a leaf key-path of the
in-progress tree (names equal keys in built trees; sorting only permutes
siblings). -/
theorem leafPaths_sub : ∀ t : TNode, nkOkL t.children →
    ∀ q ∈ leafPathsL (tree_to_list t).children, q ∈ ileafPathsL t.children := by
  intro t
  induction t using TNode.indOn with
  | h nm l cs ih =>
    intro hnk q hq
    rw [show (TNode.mk nm l cs).children = cs from rfl] at hnk ⊢
    rw [tree_to_list] at hq
    cases hsort : (sortByB keyLE (ttlPairs cs)).map Prod.snd with
    | nil =>
      rw [hsort] at hq
      simp [leafPathsL, OutNode.children] at hq
    | cons k0 ks =>
      rw [hsort] at hq
      simp only [OutNode.children] at hq
      obtain ⟨o, ho, hqo⟩ := (mem_leafPathsL q (k0 :: ks)).mp hq
      rw [← hsort] at ho
      obtain ⟨pr, hpr, hpro⟩ := List.mem_map.mp ho
      have hpr2 : pr ∈ ttlPairs cs := (sortByB_perm keyLE (ttlPairs cs)).mem_iff.mp hpr
      rw [ttlPairs_eq_map] at hpr2
      obtain ⟨pc, hpc, hpcr⟩ := List.mem_map.mp hpr2
      obtain ⟨key, c⟩ := pc
      have ho2 : o = tree_to_list c := by rw [← hpro, ← hpcr]
      have hnkc := nkOkL_mem cs key c hnk hpc
      rw [nkOkN_iff] at hnkc
      refine (mem_ileafPathsL q cs).mpr ⟨(key, c), hpc, ?_⟩
      obtain ⟨cn, cl, ccs⟩ := c
      rw [ho2] at hqo
      rw [tree_to_list] at hqo
      cases hsort2 : (sortByB keyLE (ttlPairs ccs)).map Prod.snd with
      | nil =>
        rw [hsort2] at hqo
        simp only [leafPathsN] at hqo
        have hccs : ccs = [] := by
          cases hc : ccs with
          | nil => rfl
          | cons x xs =>
            exfalso
            have hlen : ((sortByB keyLE (ttlPairs ccs)).map Prod.snd).length = ccs.length := by
              rw [List.length_map, (sortByB_perm keyLE (ttlPairs ccs)).length_eq,
                ttlPairs_eq_map, List.length_map]
            rw [hsort2, hc] at hlen
            simp at hlen
        rcases List.mem_singleton.mp hqo with h
        subst h
        rw [show (TNode.mk cn cl ccs).name = cn from rfl] at hnkc
        rw [hccs]
        show [cn] ∈ ileafPathsK key (.mk cn cl [])
        rw [hnkc.1]
        simp [ileafPathsK]
      | cons k1 ks1 =>
        rw [hsort2] at hqo
        simp only [leafPathsN] at hqo
        obtain ⟨q1, hq1, hq1q⟩ := List.mem_map.mp hqo
        have hccs : ccs ≠ [] := by
          intro hc
          subst hc
          simp [ttlPairs, sortByB] at hsort2
        have hq1i : q1 ∈ ileafPathsL ccs := by
          refine ih (key, .mk cn cl ccs) hpc hnkc.2 q1 ?_
          rw [tree_to_list, hsort2]
          exact hq1
        rw [show (TNode.mk cn cl ccs).name = cn from rfl] at hnkc
        show q ∈ ileafPathsK key (.mk cn cl ccs)
        cases hc : ccs with
        | nil => exact absurd hc hccs
        | cons x xs =>
          simp only [ileafPathsK]
          refine List.mem_map.mpr ⟨q1, ?_, ?_⟩
          · rw [← hc]
            exact hq1i
          · rw [← hq1q, hnkc.1]

/-- `add_to_tree` creates no leaf key-path other than the inserted one. -/
theorem ileaf_add : ∀ (parts : List String) (t : TNode) (loc : Nat) (q : List String),
    q ∈ ileafPathsL (add_to_tree t parts loc).children →
    q = parts ∨ q ∈ ileafPathsL t.children := by
  intro parts
  induction parts with
  | nil =>
    intro t loc q h
    obtain ⟨nm, l, cs⟩ := t
    exact Or.inr h
  | cons p rest ih =>
    intro t loc q h
    obtain ⟨nm, l, cs⟩ := t
    cases rest with
    | nil =>
      rw [show add_to_tree (.mk nm l cs) [p] loc
            = .mk nm l (setChild cs p (.mk p (some loc) [])) from rfl] at h
      obtain ⟨pr, hpr, hq⟩ := (mem_ileafPathsL q _).mp h
      rcases setChild_mem cs p _ pr hpr with h2 | h2
      · subst h2
        simp only [ileafPathsK] at hq
        rcases List.mem_singleton.mp hq with h3
        exact Or.inl h3
      · exact Or.inr ((mem_ileafPathsL q cs).mpr ⟨pr, h2, hq⟩)
    | cons q2 rest2 =>
      rw [show add_to_tree (.mk nm l cs) (p :: q2 :: rest2) loc
            = .mk nm l (setChild cs p
                (add_to_tree ((getChild cs p).getD (.mk p none [])) (q2 :: rest2) loc))
            from rfl] at h
      obtain ⟨pr, hpr, hq⟩ := (mem_ileafPathsL q _).mp h
      rcases setChild_mem cs p _ pr hpr with h2 | h2
      · subst h2
        have hne := add_to_tree_children_ne_nil ((getChild cs p).getD (.mk p none []))
          (q2 :: rest2) loc (by simp)
        cases hinner : add_to_tree ((getChild cs p).getD (.mk p none [])) (q2 :: rest2) loc with
        | mk inm il ics =>
          rw [hinner] at hq hne
          simp only [TNode.children] at hne
          cases hics : ics with
          | nil => exact absurd hics hne
          | cons i0 irest =>
            rw [hics] at hq
            simp only [ileafPathsK] at hq
            obtain ⟨q1, hq1, hq1q⟩ := List.mem_map.mp hq
            rw [← hics] at hq1
            have := ih ((getChild cs p).getD (.mk p none [])) loc q1
              (by rw [hinner]; exact hq1)
            rcases this with h3 | h3
            · exact Or.inl (by rw [← hq1q, h3])
            · cases hg : getChild cs p with
              | none =>
                rw [hg] at h3
                simp [ileafPathsL, TNode.children] at h3
              | some c =>
                rw [hg] at h3
                simp only [Option.getD_some] at h3
                obtain ⟨cn2, cl2, ccs2⟩ := c
                cases hc : ccs2 with
                | nil =>
                  rw [hc] at h3
                  simp [TNode.children, ileafPathsL] at h3
                | cons x xs =>
                  refine Or.inr ((mem_ileafPathsL q cs).mpr
                    ⟨(p, .mk cn2 cl2 ccs2), getChild_mem cs p _ hg, ?_⟩)
                  rw [hc]
                  show q ∈ ileafPathsK p (.mk cn2 cl2 (x :: xs))
                  simp only [ileafPathsK]
                  rw [← hc]
                  refine List.mem_map.mpr ⟨q1, ?_, hq1q⟩
                  rw [hc] at h3 ⊢
                  exact h3
      · exact Or.inr ((mem_ileafPathsL q cs).mpr ⟨pr, h2, hq⟩)

theorem ileaf_foldl : ∀ (rs : List (List String × Nat)) (t : TNode) (q : List String),
    q ∈ ileafPathsL ((rs.foldl treeStep t)).children →
    q ∈ rs.map Prod.fst ∨ q ∈ ileafPathsL t.children := by
  intro rs
  induction rs with
  | nil => intro t q h; exact Or.inr h
  | cons r rest ih =>
    intro t q h
    rw [List.foldl_cons] at h
    rcases ih (treeStep t r) q h with h2 | h2
    · exact Or.inl (List.mem_cons_of_mem _ h2)
    · rcases ileaf_add r.1 t r.2 q h2 with h3 | h3
      · exact Or.inl (h3 ▸ List.mem_cons_self _ _)
      · exact Or.inr h3

/-- Inverse of `splitChars`: join the pieces with the separator. -/
def joinCl (sep : Char) : List (List Char) → List Char
  | [] => []
  | [x] => x
  | x :: y :: rest => x ++ sep :: joinCl sep (y :: rest)

theorem splitChars_joinCl (sep : Char) : ∀ l : List Char, joinCl sep (splitChars sep l) = l := by
  intro l
  induction l with
  | nil => rfl
  | cons c rest ih =>
    simp only [splitChars]
    cases hr : splitChars sep rest with
    | nil => exact absurd hr (splitChars_ne_nil sep rest)
    | cons r0 r1 =>
      rw [hr] at ih
      by_cases hc : c = sep
      · rw [if_pos hc]
        show joinCl sep ([] :: r0 :: r1) = c :: rest
        rw [show joinCl sep ([] :: r0 :: r1) = [] ++ sep :: joinCl sep (r0 :: r1) from rfl]
        rw [List.nil_append, ih, hc]
      · rw [if_neg hc]
        cases r1 with
        | nil =>
          show joinCl sep [c :: r0] = c :: rest
          show c :: r0 = c :: rest
          rw [show (r0 : List Char) = joinCl sep [r0] from rfl, ih]
        | cons s t =>
          show joinCl sep ((c :: r0) :: s :: t) = c :: rest
          rw [show joinCl sep ((c :: r0) :: s :: t)
                = (c :: r0) ++ sep :: joinCl sep (s :: t) from rfl]
          rw [show ((c :: r0) ++ sep :: joinCl sep (s :: t))
                = c :: (r0 ++ sep :: joinCl sep (s :: t)) from rfl]
          rw [show (r0 ++ sep :: joinCl sep (s :: t)) = joinCl sep (r0 :: s :: t) from rfl]
          rw [ih]

theorem splitOnSlash_inj {s1 s2 : String} (h : splitOnSlash s1 = splitOnSlash s2) :
    s1 = s2 := by
  have hmk : Function.Injective String.mk := fun a b hab => by injection hab
  have hsc : splitChars '/' s1.data = splitChars '/' s2.data :=
    List.map_injective_iff.mpr hmk h
  have hdata : s1.data = s2.data := by
    rw [← splitChars_joinCl '/' s1.data, ← splitChars_joinCl '/' s2.data, hsc]
  cases s1
  cases s2
  simp only at hdata
  rw [hdata]

theorem textRecs_mem_elim {es : List ZipEntry} {rec : List String × Nat}
    (h : rec ∈ textRecs es) :
    ∃ e2 ∈ es, e2.isDir = false ∧
      looks_textual (relOf e2) (e2.content.take 4096) = true ∧
      rec.1 = splitOnSlash (relOf e2) := by
  obtain ⟨e2, he2, hrec⟩ := List.mem_filterMap.mp h
  simp only [entryRec] at hrec
  split at hrec
  · cases hrec
  · split at hrec
    · cases hrec
      rename_i hdir htex
      exact ⟨e2, he2, by simpa using hdir, htex, rfl⟩
    · cases hrec

/-- C10: a file classified binary is counted in `files_scanned` (which
counts every non-directory entry), appears among the graph nodes, and is
absent from the finalized tree — no leaf carries its path. -/
theorem C10_binary_in_nodes_not_tree (owner repo : String) (z : Zipball) (scanId : String)
    (createdAt : Nat) (r : ScanResult) (e : ZipEntry)
    (h : scan_repo owner repo z scanId createdAt = .ok r)
    (he : e ∈ z.entries) (hd : e.isDir = false)
    (hbin : ∀ e2 ∈ z.entries, e2.isDir = false → relOf e2 = relOf e →
      looks_textual (relOf e2) (e2.content.take 4096) = false) :
    r.summary.files_scanned = nonDirCount z.entries ∧
    relOf e ∈ r.graph.nodes ∧
    splitOnSlash (relOf e) ∉ leafPaths r.tree := by
  obtain ⟨st, hp, htree, hnodes, _, hfs, _, _⟩ :=
    scan_repo_ok_elim owner repo z scanId createdAt r h
  obtain ⟨hptree, _, hpcount⟩ := pass1_ok_spec z.entries initState st hp
  refine ⟨?_, ?_, ?_⟩
  · rw [hfs, hpcount]
    simp [initState]
  · rw [hnodes]
    exact (sortByB_perm strLE st.allFiles).mem_iff.mpr
      ((pass1_files_spec z.entries initState st hp).2.1 e he hd)
  · intro hq
    rw [htree] at hq
    unfold leafPaths at hq
    have hnk : nkOkL st.tree.children := by
      rw [hptree]
      exact nk_foldl (textRecs z.entries) initState.tree trivial
    have hq2 := leafPaths_sub st.tree hnk _ hq
    rw [hptree] at hq2
    rcases ileaf_foldl (textRecs z.entries) initState.tree _ hq2 with h4 | h4
    · obtain ⟨rec, hrec, hrfst⟩ := List.mem_map.mp h4
      obtain ⟨e2, he2, hd2, htex2, hr2⟩ := textRecs_mem_elim hrec
      have hrel : relOf e2 = relOf e := by
        refine splitOnSlash_inj ?_
        rw [← hr2, hrfst]
      rw [hbin e2 he2 hd2 hrel] at htex2
      cases htex2
    · simp [initState, rootNode, ileafPathsL, TNode.children] at h4

def filesScannedOf (x : Except String ScanResult) : Nat :=
  match x with
  | .ok r => r.summary.files_scanned
  | .error _ => 0

def zc10 : Zipball :=
  ⟨1000,
   [⟨"repo-main/blob", [0, 1, 2]⟩,
    ⟨"repo-main/a.py", asciiBytes "x = 1\n"⟩]⟩

def zc10blob : ZipEntry := ⟨"repo-main/blob", [0, 1, 2]⟩

theorem C10_binary_in_nodes_not_tree_witness :
    filesScannedOf (scan_repo "o" "r" zc10 "w" 0) = nonDirCount zc10.entries ∧
    "blob" ∈ nodesOf (scan_repo "o" "r" zc10 "w" 0) ∧
    ["blob"] ∉ leafPaths (treeOf (scan_repo "o" "r" zc10 "w" 0)) := by
  have hok : (scan_repo "o" "r" zc10 "w" 0).isOk = true := by decide
  cases h : scan_repo "o" "r" zc10 "w" 0 with
  | error m =>
    rw [h] at hok
    simp [Except.isOk, Except.toBool] at hok
  | ok r =>
    have h10 := C10_binary_in_nodes_not_tree "o" "r" zc10 "w" 0 r zc10blob h
      (by simp [zc10, zc10blob]) (by decide) (by decide)
    simp only [filesScannedOf, nodesOf, treeOf]
    have hr : relOf zc10blob = "blob" := rfl
    have hs : splitOnSlash (relOf zc10blob) = ["blob"] := rfl
    rw [hr] at h10
    rw [← hs]
    exact ⟨h10.1, h10.2.1, by rw [hr]; exact h10.2.2⟩

/-- The observable probe order of `_resolve_js_ts` for `./util` from
`src/app.ts`: exact joined path, the five extensions, the four index
files, first hit wins (the nested loop of the source re-tests later
candidates, but first-match semantics coincide with this single list). -/
theorem jsresolve_char (files : List String) :
    _resolve_js_ts "src/app.ts" "./util" files
      = (["src/util", "src/util.ts", "src/util.tsx", "src/util.js", "src/util.jsx",
          "src/util.json", "src/util/index.ts", "src/util/index.tsx", "src/util/index.js",
          "src/util/index.jsx"]).find? (fun c => files.contains c) := by
  show jsLoop files ["src/util", "src/util.ts", "src/util.tsx", "src/util.js", "src/util.jsx",
      "src/util.json", "src/util/index.ts", "src/util/index.tsx", "src/util/index.js",
      "src/util/index.jsx"] = _
  have d1 : '.' ∉ (lastSegOf "src/util").data := by decide
  have d2 : '.' ∈ (lastSegOf "src/util.ts").data := by decide
  have d3 : '.' ∈ (lastSegOf "src/util.tsx").data := by decide
  have d4 : '.' ∈ (lastSegOf "src/util.js").data := by decide
  have d5 : '.' ∈ (lastSegOf "src/util.jsx").data := by decide
  have d6 : '.' ∈ (lastSegOf "src/util.json").data := by decide
  have d7 : '.' ∈ (lastSegOf "src/util/index.ts").data := by decide
  have d8 : '.' ∈ (lastSegOf "src/util/index.tsx").data := by decide
  have d9 : '.' ∈ (lastSegOf "src/util/index.js").data := by decide
  have d10 : '.' ∈ (lastSegOf "src/util/index.jsx").data := by decide
  simp only [jsLoop, jsInner, List.find?]
  simp only [show normPosix (resubStr (normPosix "src/util")) = "src/util" from rfl,
    show normPosix (resubStr (normPosix "src/util.ts")) = "src/util.ts" from rfl,
    show normPosix (resubStr (normPosix "src/util.tsx")) = "src/util.tsx" from rfl,
    show normPosix (resubStr (normPosix "src/util.js")) = "src/util.js" from rfl,
    show normPosix (resubStr (normPosix "src/util.jsx")) = "src/util.jsx" from rfl,
    show normPosix (resubStr (normPosix "src/util.json")) = "src/util.json" from rfl,
    show normPosix (resubStr (normPosix "src/util/index.ts")) = "src/util/index.ts" from rfl,
    show normPosix (resubStr (normPosix "src/util/index.tsx")) = "src/util/index.tsx" from rfl,
    show normPosix (resubStr (normPosix "src/util/index.js")) = "src/util/index.js" from rfl,
    show normPosix (resubStr (normPosix "src/util/index.jsx")) = "src/util/index.jsx" from rfl,
    show "src/util" ++ ".ts" = "src/util.ts" from rfl,
    show "src/util" ++ ".tsx" = "src/util.tsx" from rfl,
    show "src/util" ++ ".js" = "src/util.js" from rfl,
    show "src/util" ++ ".jsx" = "src/util.jsx" from rfl,
    show "src/util" ++ ".json" = "src/util.json" from rfl,
    show "src/util" ++ "/index.ts" = "src/util/index.ts" from rfl,
    show "src/util" ++ "/index.tsx" = "src/util/index.tsx" from rfl,
    show "src/util" ++ "/index.js" = "src/util/index.js" from rfl,
    show "src/util" ++ "/index.jsx" = "src/util/index.jsx" from rfl]
  by_cases h1 : "src/util" ∈ files
  · simp [d1, d2, d3, d4, d5, d6, d7, d8, d9, d10, h1]
  ·
    by_cases h2 : "src/util.ts" ∈ files
    · simp [d1, d2, d3, d4, d5, d6, d7, d8, d9, d10, h1, h2]
    ·
      by_cases h3 : "src/util.tsx" ∈ files
      · simp [d1, d2, d3, d4, d5, d6, d7, d8, d9, d10, h1, h2, h3]
      ·
        by_cases h4 : "src/util.js" ∈ files
        · simp [d1, d2, d3, d4, d5, d6, d7, d8, d9, d10, h1, h2, h3, h4]
        ·
          by_cases h5 : "src/util.jsx" ∈ files
          · simp [d1, d2, d3, d4, d5, d6, d7, d8, d9, d10, h1, h2, h3, h4, h5]
          ·
            by_cases h6 : "src/util.json" ∈ files
            · simp [d1, d2, d3, d4, d5, d6, d7, d8, d9, d10, h1, h2, h3, h4, h5, h6]
            ·
              by_cases h7 : "src/util/index.ts" ∈ files
              · simp [d1, d2, d3, d4, d5, d6, d7, d8, d9, d10, h1, h2, h3, h4, h5, h6, h7]
              ·
                by_cases h8 : "src/util/index.tsx" ∈ files
                · simp [d1, d2, d3, d4, d5, d6, d7, d8, d9, d10, h1, h2, h3, h4, h5, h6, h7, h8]
                ·
                  by_cases h9 : "src/util/index.js" ∈ files
                  · simp [d1, d2, d3, d4, d5, d6, d7, d8, d9, d10, h1, h2, h3, h4, h5, h6, h7, h8, h9]
                  ·
                    by_cases h10 : "src/util/index.jsx" ∈ files
                    · simp [d1, d2, d3, d4, d5, d6, d7, d8, d9, d10, h1, h2, h3, h4, h5, h6, h7, h8, h9, h10]
                    ·
                      simp [d1, d2, d3, d4, d5, d6, d7, d8, d9, d10, h1, h2, h3, h4, h5, h6, h7, h8, h9, h10]


theorem edge_of_fileEdges_js (files : List String) (path : String) (content : List Nat)
    (spec tgt : String)
    (hext : JS_TS_EXTS.contains (extLower path) = true)
    (hspec : spec ∈ jsImports (decodeIgnore content))
    (hrel : _is_rel spec = true)
    (hres : _resolve_js_ts path spec files = some tgt) :
    (path, tgt) ∈ fileEdges files path content := by
  simp only [fileEdges, hext, if_true]
  refine List.mem_filterMap.mpr ⟨spec, hspec, ?_⟩
  rw [hrel]
  simp [hres]

/-- C4 (amended): resolving `./util` from `src/app.ts` probes, in order,
the exact joined path `src/util`, then `src/util` with each source
extension, then its index files, stopping at the first known path; hence
the scan's graph gets the edge to `src/util.ts` provided the exact path
`src/util` is not itself known, and the edge to `src/util/index.ts`
provided no earlier candidate is known. -/
theorem C4_relative_js_resolution (owner repo : String) (z : Zipball) (scanId : String)
    (createdAt : Nat) (r : ScanResult) (st : P1State) (content : List Nat)
    (h : scan_repo owner repo z scanId createdAt = .ok r)
    (hp : pass1 initState z.entries = .ok st)
    (hfb : ("src/app.ts", content) ∈ st.fileBytes)
    (hspec : "./util" ∈ jsImports (decodeIgnore content)) :
    (∀ files : List String, _resolve_js_ts "src/app.ts" "./util" files
        = (["src/util", "src/util.ts", "src/util.tsx", "src/util.js", "src/util.jsx",
            "src/util.json", "src/util/index.ts", "src/util/index.tsx", "src/util/index.js",
            "src/util/index.jsx"]).find? (fun c => files.contains c)) ∧
    (st.allFiles.contains "src/util" = false → st.allFiles.contains "src/util.ts" = true →
      ("src/app.ts", "src/util.ts") ∈ r.graph.edges) ∧
    ((∀ c ∈ (["src/util", "src/util.ts", "src/util.tsx", "src/util.js", "src/util.jsx",
        "src/util.json"] : List String), st.allFiles.contains c = false) →
      st.allFiles.contains "src/util/index.ts" = true →
      ("src/app.ts", "src/util/index.ts") ∈ r.graph.edges) := by
  obtain ⟨st2, hp2, _, _, hedges, _, _, _⟩ :=
    scan_repo_ok_elim owner repo z scanId createdAt r h
  rw [hp] at hp2
  cases hp2
  refine ⟨jsresolve_char, ?_, ?_⟩
  · intro h5 h6
    have hres : _resolve_js_ts "src/app.ts" "./util" st.allFiles = some "src/util.ts" := by
      rw [jsresolve_char]
      have h5m : "src/util" ∉ st.allFiles := by simpa using h5
      have h6m : "src/util.ts" ∈ st.allFiles := mem_of_contains h6
      simp [List.find?, h5m, h6m]
    rw [hedges]
    exact (pass2_mem st.allFiles st.fileBytes _).mpr
      ⟨("src/app.ts", content), hfb,
       edge_of_fileEdges_js st.allFiles "src/app.ts" content "./util" "src/util.ts"
         (by decide) hspec (by decide) hres⟩
  · intro hall h7
    have hres : _resolve_js_ts "src/app.ts" "./util" st.allFiles
        = some "src/util/index.ts" := by
      rw [jsresolve_char]
      have c1 : "src/util" ∉ st.allFiles := by simpa using hall "src/util" (by simp)
      have c2 : "src/util.ts" ∉ st.allFiles := by simpa using hall "src/util.ts" (by simp)
      have c3 : "src/util.tsx" ∉ st.allFiles := by simpa using hall "src/util.tsx" (by simp)
      have c4 : "src/util.js" ∉ st.allFiles := by simpa using hall "src/util.js" (by simp)
      have c5 : "src/util.jsx" ∉ st.allFiles := by simpa using hall "src/util.jsx" (by simp)
      have c6 : "src/util.json" ∉ st.allFiles := by simpa using hall "src/util.json" (by simp)
      have h7m : "src/util/index.ts" ∈ st.allFiles := mem_of_contains h7
      simp [List.find?, c1, c2, c3, c4, c5, c6, h7m]
    rw [hedges]
    exact (pass2_mem st.allFiles st.fileBytes _).mpr
      ⟨("src/app.ts", content), hfb,
       edge_of_fileEdges_js st.allFiles "src/app.ts" content "./util" "src/util/index.ts"
         (by decide) hspec (by decide) hres⟩

def zc4w : Zipball :=
  ⟨1000,
   [⟨"repo-main/src/app.ts", asciiBytes "import u from \"./util\";\n"⟩,
    ⟨"repo-main/src/util.ts", asciiBytes "export const u = 1;\n"⟩]⟩

theorem C4_relative_js_resolution_witness :
    ("src/app.ts", "src/util.ts") ∈ edgesOf (scan_repo "o" "r" zc4w "w" 0) := by
  have hok : (scan_repo "o" "r" zc4w "w" 0).isOk = true := by decide
  cases h : scan_repo "o" "r" zc4w "w" 0 with
  | error m =>
    rw [h] at hok
    simp [Except.isOk, Except.toBool] at hok
  | ok r =>
    have hpok : (pass1 initState zc4w.entries).isOk = true := by decide
    cases hps : pass1 initState zc4w.entries with
    | error m =>
      rw [hps] at hpok
      simp [Except.isOk, Except.toBool] at hpok
    | ok st =>
      have hfb : ("src/app.ts", asciiBytes "import u from \"./util\";\n")
          ∈ fbOf (pass1 initState zc4w.entries) := by decide
      rw [hps] at hfb
      simp only [fbOf] at hfb
      have hspec : "./util" ∈ jsImports (decodeIgnore (asciiBytes "import u from \"./util\";\n")) := by
        decide
      have h5 : st.allFiles.contains "src/util" = false := by
        have h5a : (afOf (pass1 initState zc4w.entries)).contains "src/util" = false := by decide
        rw [hps] at h5a
        simpa [afOf] using h5a
      have h6 : st.allFiles.contains "src/util.ts" = true := by
        have h6a : (afOf (pass1 initState zc4w.entries)).contains "src/util.ts" = true := by decide
        rw [hps] at h6a
        simpa [afOf] using h6a
      have hedge := (C4_relative_js_resolution "o" "r" zc4w "w" 0 r st
        (asciiBytes "import u from \"./util\";\n") h hps hfb hspec).2.1 h5 h6
      simp only [edgesOf]
      exact hedge

def zc4x : Zipball :=
  ⟨1000,
   [⟨"repo-main/src/app.ts", asciiBytes "import u from \"./util\";\n"⟩,
    ⟨"repo-main/src/util", asciiBytes "x\n"⟩,
    ⟨"repo-main/src/util.ts", asciiBytes "export const u = 1;\n"⟩]⟩

/-- C4 counterexample: `src/util.ts` is among the known paths, yet the
graph's only edge goes to the extensionless file `src/util` — the exact
joined path is probed first, so the claim's first conditional is false as
stated. -/
theorem C4_counterexample :
    "src/util.ts" ∈ nodesOf (scan_repo "o" "r" zc4x "w" 0) ∧
    edgesOf (scan_repo "o" "r" zc4x "w" 0) = [("src/app.ts", "src/util")] ∧
    ("src/app.ts", "src/util.ts") ∉ edgesOf (scan_repo "o" "r" zc4x "w" 0) := by
  refine ⟨by decide, by decide, by decide⟩

end CodeLens
